import Mathlib

/-!
Verification of the targz archiver (package targz, file targz.go).

The development shallowly embeds targz.go:

* Go strings (paths and file contents) are lists of characters (`Str`).
* The source directory tree is the inductive `FNode`; a `readable := false`
  flag on a node injects a failure for the one operation that reads that
  node (`os.Open`/`io.Copy` for files, `os.Readlink` for symbolic links,
  `ioutil.ReadDir` for directories).
* The destination filesystem is an association list `World` from absolute
  paths (segment lists) to nodes; the root directory is implicit.
* Write errors on the archive stream and failures of the three `Close`
  calls are injected through `Cfg`.
* `Compress`, `compress`, `mkdirAll`, `stripTrailingSlashes`,
  `writeDirectory` and `writeTarGz` are translated function by function
  from targz.go.  `filepath.Abs` (an external collaborator) is an oracle
  `Str → Option Str` that is assumed to return clean absolute paths.
* `compress` and `Compress` also return the trace of the events
  create / closeTar / closeGzip / closeFile / removeDest, in order.
-/

set_option maxHeartbeats 1000000
set_option maxRecDepth 10000
set_option linter.unusedVariables false

namespace Targz

/-- Characters of a Go string; paths and file contents are byte strings,
modelled as lists of characters. -/
abbrev Str := List Char

/-- View a Lean string literal as a `Str`. -/
def str (s : String) : Str := s.data

/-- Join segments, each one preceded by the separator:
`core [a, b] = "/a/b"` and `core [] = ""`. -/
def core (segs : List Str) : Str := (segs.map (fun s => '/' :: s)).flatten

/-- The clean absolute path made of the given segments; the root is `"/"`. -/
def segsToAbs (segs : List Str) : Str := if segs = [] then ['/'] else core segs

/-- Split a string at every separator (keeping empty components). -/
def splitSlash : Str → List Str
  | [] => [[]]
  | c :: rest =>
    match splitSlash rest with
    | [] => [[]]
    | s :: ss => if c = '/' then [] :: s :: ss else (c :: s) :: ss

/-- The segments of a path: split at separators, dropping empty components. -/
def splitAbs (s : Str) : List Str := (splitSlash s).filter (fun t => t ≠ [])

/-- Model of Go `path.Dir`/`filepath.Dir` on clean absolute paths:
everything before the last separator, or the root. -/
def goDir (s : Str) : Str :=
  let r := ((s.reverse.dropWhile (fun c => c ≠ '/')).tail).reverse
  if r = [] then ['/'] else r

/-- Translation of `stripTrailingSlashes` (targz.go:91): remove the final
character when it is a separator.  Note the Go code is a single `if`, not a
loop: at most one separator is removed. -/
def stripTrailingSlashes (path : Str) : Str :=
  if 0 < path.length ∧ path.getLast? = some '/' then path.dropLast else path

/-- The error kinds surfaced by the archiver, by provenance. -/
inductive CErr where
  | absFail
  | mkdirFail
  | createFail
  | readDirFail
  | emptySource
  | readFileFail
  | writeFail
  | closeTarFail
  | closeGzipFail
  | closeFileFail
deriving DecidableEq, Repr

/-- Number of writes to the archive stream that will still succeed;
`none` means no injected write failure. -/
abbrev Budget := Option Nat

/-- One write to the archive stream: fails once the injected budget is
exhausted. -/
def spend : Budget → Except CErr Budget
  | none => .ok none
  | some 0 => .error .writeFail
  | some (n + 1) => .ok (some n)

mutual
/-- A node of the source filesystem tree. -/
inductive FNode where
  | file (mode : Nat) (content : Str) (readable : Bool)
  | symlink (mode : Nat) (target : Str) (readable : Bool)
  | socket (mode : Nat)
  | dir (mode : Nat) (readable : Bool) (entries : FEntries)
/-- The named children of a directory, in listing order. -/
inductive FEntries where
  | nil
  | cons (name : Str) (node : FNode) (rest : FEntries)
end

/-- Append two child listings. -/
def FEntries.append : FEntries → FEntries → FEntries
  | .nil, ys => ys
  | .cons n x rest, ys => .cons n x (rest.append ys)

/-- The names of the children, in order. -/
def namesE : FEntries → List Str
  | .nil => []
  | .cons n _ rest => n :: namesE rest

/-- A well-formed path segment: nonempty and free of separators. -/
def segWfB (s : Str) : Bool := decide (s ≠ [] ∧ '/' ∉ s)

mutual
/-- Well-formed source tree: every child name is a well-formed segment and
sibling names are distinct. -/
def wfN : FNode → Bool
  | .dir _ _ es => wfE es
  | _ => true
def wfE : FEntries → Bool
  | .nil => true
  | .cons n child rest =>
    segWfB n && wfN child && decide (n ∉ namesE rest) && wfE rest
end

mutual
/-- Every node of the tree is readable. -/
def allReadableN : FNode → Bool
  | .file _ _ r => r
  | .symlink _ _ r => r
  | .socket _ => true
  | .dir _ r es => r && allReadableE es
def allReadableE : FEntries → Bool
  | .nil => true
  | .cons _ child rest => allReadableN child && allReadableE rest
end

mutual
/-- The node reached from a node by following a relative segment path. -/
def nodeAt : FNode → List Str → Option FNode
  | node, [] => some node
  | .dir _ _ es, n :: rel => nodeAtE es n rel
  | _, _ :: _ => none
def nodeAtE : FEntries → Str → List Str → Option FNode
  | .nil, _, _ => none
  | .cons n' child rest, n, rel =>
    if n' = n then nodeAt child rel else nodeAtE rest n rel
end

/-- The type recorded in a tar header. -/
inductive EType where
  | reg
  | directory
  | link
deriving DecidableEq, Repr

/-- One record written to the archive: the header fields produced by
`tar.FileInfoHeader` plus, for regular files, the byte content streamed
right after the header. -/
structure Entry where
  name : Str
  typ : EType
  mode : Nat
  link : Str
  content : Option Str
deriving DecidableEq, Repr

/-- Translation of `writeTarGz` (targz.go:195): emit the archive records for
one node (never called on non-empty directories).  The symlink target is
read first (`os.Readlink`), sockets are skipped before any header is
written, the header name is `path` with the `subPath` prefix cut off, and
only regular files stream content after their header.  The header write and
the content copy each consume one unit of write budget. -/
def writeTarGz (path : Str) (node : FNode) (subPath : Str) (b : Budget) :
    Except CErr (List Entry × Budget) :=
  match node with
  | .symlink m t r =>
    if r then
      match spend b with
      | .error e => .error e
      | .ok b1 =>
        .ok ([{ name := path.drop subPath.length, typ := .link, mode := m,
                link := t, content := none }], b1)
    else .error .readFileFail
  | .socket _ => .ok ([], b)
  | .file m c r =>
    match spend b with
    | .error e => .error e
    | .ok b1 =>
      if r then
        match spend b1 with
        | .error e => .error e
        | .ok b2 =>
          .ok ([{ name := path.drop subPath.length, typ := .reg, mode := m,
                  link := [], content := some c }], b2)
      else .error .readFileFail
  | .dir m _ _ =>
    match spend b with
    | .error e => .error e
    | .ok b1 =>
      .ok ([{ name := path.drop subPath.length, typ := .directory, mode := m,
              link := [], content := none }], b1)

mutual
/-- Translation of `writeDirectory` (targz.go:159): list the directory
(failing when it is unreadable or not a directory), record an empty
directory as a header-only entry, and otherwise walk the children. -/
def writeDirectory (dirPath : Str) (node : FNode) (subPath : Str) (b : Budget) :
    Except CErr (List Entry × Budget) :=
  match node with
  | .dir _ r es =>
    if r then
      match es with
      | .nil => writeTarGz dirPath node subPath b
      | .cons .. => writeEntries dirPath es subPath b
    else .error .readDirFail
  | _ => .error .readDirFail
/-- The loop of `writeDirectory` over the listed children: recurse into
subdirectories, pass every other node to `writeTarGz`. -/
def writeEntries (dirPath : Str) (es : FEntries) (subPath : Str) (b : Budget) :
    Except CErr (List Entry × Budget) :=
  match es with
  | .nil => .ok ([], b)
  | .cons n child rest =>
    match (match child with
           | .dir .. => writeDirectory (dirPath ++ '/' :: n) child subPath b
           | _ => writeTarGz (dirPath ++ '/' :: n) child subPath b) with
    | .error e => .error e
    | .ok (out1, b1) =>
      match writeEntries dirPath rest subPath b1 with
      | .error e => .error e
      | .ok (out2, b2) => .ok (out1 ++ out2, b2)
end

/-- A node of the destination filesystem: a directory, or a file whose
content is the abstract archive stream. -/
inductive DNode where
  | dnDir
  | dnFile (content : List Entry)
deriving DecidableEq, Repr

/-- Destination filesystem: bindings from absolute paths (segment lists) to
nodes.  The root directory is implicit and always exists. -/
abbrev World := List (List Str × DNode)

/-- First binding for the given path, if any. -/
def lookupW (w : World) (p : List Str) : Option DNode :=
  match w with
  | [] => none
  | (q, n) :: rest => if q = p then some n else lookupW rest p

/-- `os.Stat`/`os.Lstat` on the destination side: the root always exists as
a directory.  The destination world holds no symbolic links, so the two
calls coincide. -/
def statW (w : World) (p : List Str) : Option DNode :=
  if p = [] then some .dnDir else lookupW w p

/-- The body of the stat loop of `mkdirAll` (targz.go:52), with the number
of remaining steps to the root made explicit so the recursion is
structural: the loop climbs one segment per step, so from a path of length
`fuel` the root is reached in exactly `fuel` steps.  When the fuel runs out
the current path is the root, which always exists as a directory. -/
def mkdirLoopFuel (w : World) : Nat → List Str → Option (List Str) →
    Except CErr (Option (List Str))
  | 0, _, undo => .ok undo
  | fuel + 1, p, undo =>
    match lookupW w p with
    | some .dnDir => .ok undo
    | some (.dnFile _) => .error .mkdirFail
    | none => mkdirLoopFuel w fuel p.dropLast (some p)

/-- The stat loop of `mkdirAll` (targz.go:52): climb from the requested
directory towards the root until an existing path is found, remembering the
topmost missing path (the first directory the later `os.MkdirAll` will have
to create).  A path that exists but is not a directory fails with ENOTDIR. -/
def mkdirLoop (w : World) (p : List Str) (undo : Option (List Str)) :
    Except CErr (Option (List Str)) :=
  mkdirLoopFuel w p.length p undo

/-- The nonempty prefixes of a path, shortest first. -/
def prefixesOf (p : List Str) : List (List Str) :=
  (List.range p.length).map (fun k => p.take (k + 1))

/-- `os.MkdirAll`: create every missing directory along the path. -/
def mkdirCreate (w : World) (p : List Str) : World :=
  w ++ ((prefixesOf p).filter (fun q => lookupW w q = none)).map
        (fun q => (q, DNode.dnDir))

/-- Translation of `mkdirAll` (targz.go:49): stat upwards, then create the
missing directories; returns the rollback target (the first directory this
call created, if any) together with the updated world. -/
def mkdirAll (w : World) (p : List Str) : Except CErr (Option (List Str) × World) :=
  match mkdirLoop w p none with
  | .error e => .error e
  | .ok none => .ok (none, w)
  | .ok (some ud) => .ok (some ud, mkdirCreate w p)

/-- `os.RemoveAll`: delete the binding at the path and everything below it. -/
def removeAllW (w : World) (p : List Str) : World :=
  w.filter (fun qn => ¬ p.isPrefixOf qn.1)

/-- `os.Remove` of a file path. -/
def removeW (w : World) (p : List Str) : World :=
  w.filter (fun qn => qn.1 ≠ p)

/-- `os.Create`: make the path an empty file, or truncate the file found
there. -/
def setFileW (w : World) (p : List Str) (c : List Entry) : World :=
  removeW w p ++ [(p, DNode.dnFile c)]

/-- The observable filesystem events of one archiving run, in order. -/
inductive Ev where
  | create
  | closeTar
  | closeGzip
  | closeFile
  | removeDest
deriving DecidableEq, Repr

/-- Injected failures: the write budget of the archive stream and the
outcome of the three `Close` calls. -/
structure Cfg where
  budget : Budget
  tarCloseOk : Bool
  gzipCloseOk : Bool
  fileCloseOk : Bool

/-- Translation of `compress` (targz.go:112): list the source directory,
reject an empty listing, create the output file, write the tree, and close
the tar writer, the gzip writer and the file in that order; every error
after the create removes the output file (the deferred `os.Remove`).
Returns the result, the final world and the event trace. -/
def compress (inPath : Str) (src : Option FNode) (w : World) (outP : List Str)
    (subPath : Str) (cfg : Cfg) : Except CErr Unit × World × List Ev :=
  match src with
  | some (.dir m r es) =>
    if r then
      match es with
      | .nil => (.error .emptySource, w, [])
      | .cons .. =>
        match lookupW w outP with
        | some .dnDir => (.error .createFail, w, [])
        | _ =>
          let w1 := setFileW w outP []
          match writeDirectory inPath (.dir m r es) subPath cfg.budget with
          | .error e => (.error e, removeW w1 outP, [.create, .removeDest])
          | .ok (entries, _) =>
            let w2 := setFileW w1 outP entries
            if cfg.tarCloseOk then
              if cfg.gzipCloseOk then
                if cfg.fileCloseOk then
                  (.ok (), w2, [.create, .closeTar, .closeGzip, .closeFile])
                else
                  (.error .closeFileFail, removeW w2 outP,
                   [.create, .closeTar, .closeGzip, .closeFile, .removeDest])
              else
                (.error .closeGzipFail, removeW w2 outP,
                 [.create, .closeTar, .closeGzip, .removeDest])
            else
              (.error .closeTarFail, removeW w2 outP,
               [.create, .closeTar, .removeDest])
    else (.error .readDirFail, w, [])
  | _ => (.error .readDirFail, w, [])

/-- Translation of `Compress` (targz.go:24): strip a trailing separator
from the source path, resolve both paths through the `filepath.Abs` oracle,
create the missing parents of the destination, run `compress` with
`subPath` the parent of the source, and undo the created parents when
anything failed (the deferred `undoDir`). -/
def Compress (inputRaw outputRaw : Str) (abs : Str → Option Str)
    (srcFs : Str → Option FNode) (w : World) (cfg : Cfg) :
    Except CErr Unit × World × List Ev :=
  match abs (stripTrailingSlashes inputRaw) with
  | none => (.error .absFail, w, [])
  | some inAbs =>
    match abs outputRaw with
    | none => (.error .absFail, w, [])
    | some outAbs =>
      match mkdirAll w (splitAbs outAbs).dropLast with
      | .error e => (.error e, w, [])
      | .ok (undo, w1) =>
        match compress inAbs (srcFs inAbs) w1 (splitAbs outAbs) (goDir inAbs) cfg with
        | (.ok u, w2, tr) => (.ok u, w2, tr)
        | (.error e, w2, tr) =>
          match undo with
          | none => (.error e, w2, tr)
          | some ud => (.error e, removeAllW w2 ud, tr)

/-- The step `writeEntries` performs for one child (the body of the loop in
targz.go:176): recurse for a directory, otherwise write the single node. -/
def childStep (dirPath : Str) (n : Str) (child : FNode) (subPath : Str)
    (b : Budget) : Except CErr (List Entry × Budget) :=
  match child with
  | .dir .. => writeDirectory (dirPath ++ '/' :: n) child subPath b
  | _ => writeTarGz (dirPath ++ '/' :: n) child subPath b

mutual
/-- Modelled from the spec: the entries the traversal is expected to
record, as relative segment paths paired with the node found there.  Files
and symbolic links are recorded, sockets are skipped, an empty directory is
recorded as itself, and a non-empty directory contributes only its
descendants. -/
def visitsN : FNode → List (List Str × FNode)
  | .file m c r => [([], .file m c r)]
  | .symlink m t r => [([], .symlink m t r)]
  | .socket _ => []
  | .dir m r .nil => [([], .dir m r .nil)]
  | .dir _ _ (.cons n child rest) => visitsE (.cons n child rest)
def visitsE : FEntries → List (List Str × FNode)
  | .nil => []
  | .cons n child rest =>
    (visitsN child).map (fun rx => (n :: rx.1, rx.2)) ++ visitsE rest
end

/-- The header record the spec expects for the node visited at the given
relative path: the name is the full path with the `subPath` prefix cut off,
the type, mode and link target come from the node, and only regular files
carry content. -/
def entryFor (dirPath subPath : Str) (rx : List Str × FNode) : Entry :=
  { name := (dirPath ++ core rx.1).drop subPath.length
    typ := match rx.2 with
           | .file .. => .reg
           | .dir .. => .directory
           | _ => .link
    mode := match rx.2 with
            | .file m _ _ => m | .symlink m _ _ => m
            | .socket m => m | .dir m _ _ => m
    link := match rx.2 with
            | .symlink _ t _ => t
            | _ => []
    content := match rx.2 with
               | .file _ c _ => some c
               | _ => none }

/-- Modelled from the spec: the archive the traversal of a tree rooted at
`dirPath` is expected to produce. -/
def specArchive (dirPath subPath : Str) (node : FNode) : List Entry :=
  (visitsN node).map (entryFor dirPath subPath)

/-- Whether the initial listing of the source fails or comes back empty:
the source is missing, is not a directory, is an unreadable directory, or
is an empty directory. -/
def srcListingBad : Option FNode → Bool
  | some (.dir _ r es) =>
    if r then (match es with | .nil => true | .cons .. => false) else true
  | _ => true

/-- Well-formed destination world: every nonempty proper prefix of a bound
path is bound as a directory (as on a real filesystem). -/
def wfW (w : World) : Bool :=
  w.all (fun pn =>
    (List.range (pn.1.length - 1)).all
      (fun k => lookupW w (pn.1.take (k + 1)) = some .dnDir))

/-- The close events among the trace events. -/
def isClose : Ev → Bool
  | .closeTar => true
  | .closeGzip => true
  | .closeFile => true
  | _ => false

/-- The source tree of the README example:
`my_folder/{my_sub_folder/{my_file.txt, my_link -> target}, empty/}`. -/
def exampleTree : FNode :=
  .dir 493 true (.cons (str "my_sub_folder")
    (.dir 493 true (.cons (str "my_file.txt") (.file 420 (str "example data") true)
      (.cons (str "my_link") (.symlink 511 (str "target") true) .nil)))
    (.cons (str "empty") (.dir 493 true .nil) .nil))

/-- An abs oracle that fixes the two paths of the README example. -/
def exampleAbs : Str → Option Str :=
  fun s => if s = str "/tmp/my_folder" then some (str "/tmp/my_folder")
           else if s = str "/tmp/out/my_archive.tar.gz" then
             some (str "/tmp/out/my_archive.tar.gz")
           else none

/-- A source filesystem holding the README example tree. -/
def exampleSrcFs : Str → Option FNode :=
  fun s => if s = str "/tmp/my_folder" then some exampleTree else none

/-- The destination world of the example: only `/tmp` exists. -/
def exampleWorld : World := [([str "tmp"], .dnDir)]

/-- No injected failures. -/
def cfgOk : Cfg := { budget := none, tarCloseOk := true, gzipCloseOk := true,
                     fileCloseOk := true }

instance instDecEqExcept {ε α : Type _} [DecidableEq ε] [DecidableEq α] :
    DecidableEq (Except ε α)
  | .ok a, .ok b =>
    if h : a = b then .isTrue (by rw [h])
    else .isFalse (fun hc => h (by injection hc))
  | .error a, .error b =>
    if h : a = b then .isTrue (by rw [h])
    else .isFalse (fun hc => h (by injection hc))
  | .ok a, .error b => .isFalse (fun hc => by injection hc)
  | .error a, .ok b => .isFalse (fun hc => by injection hc)

theorem writeEntries_nil (p sub : Str) (b : Budget) :
    writeEntries p .nil sub b = .ok ([], b) := rfl

theorem writeEntries_cons (p n sub : Str) (child : FNode) (rest : FEntries)
    (b : Budget) :
    writeEntries p (.cons n child rest) sub b =
      match childStep p n child sub b with
      | .error e => .error e
      | .ok (out1, b1) =>
        match writeEntries p rest sub b1 with
        | .error e => .error e
        | .ok (out2, b2) => .ok (out1 ++ out2, b2) := by
  cases child <;> rfl

theorem compress_emptySource (inPath : Str) (m : Nat) (w : World)
    (outP : List Str) (sub : Str) (cfg : Cfg) :
    compress inPath (some (.dir m true .nil)) w outP sub cfg =
      (.error .emptySource, w, []) := rfl

theorem Compress_eq (inputRaw outputRaw inAbs outAbs : Str)
    (abs : Str → Option Str) (srcFs : Str → Option FNode) (w w1 : World)
    (cfg : Cfg) (undo : Option (List Str))
    (h1 : abs (stripTrailingSlashes inputRaw) = some inAbs)
    (h2 : abs outputRaw = some outAbs)
    (hmk : mkdirAll w (splitAbs outAbs).dropLast = .ok (undo, w1)) :
    Compress inputRaw outputRaw abs srcFs w cfg =
      match compress inAbs (srcFs inAbs) w1 (splitAbs outAbs) (goDir inAbs) cfg with
      | (.ok u, w2, tr) => (.ok u, w2, tr)
      | (.error e, w2, tr) =>
        match undo with
        | none => (.error e, w2, tr)
        | some ud => (.error e, removeAllW w2 ud, tr) := by
  rcases hc : compress inAbs (srcFs inAbs) w1 (splitAbs outAbs) (goDir inAbs) cfg
    with ⟨r, w2, tr⟩
  cases r <;> cases undo <;> simp only [Compress, h1, h2, hmk, hc]

theorem Compress_mkdirFail (inputRaw outputRaw inAbs outAbs : Str)
    (abs : Str → Option Str) (srcFs : Str → Option FNode) (w : World)
    (cfg : Cfg) (e : CErr)
    (h1 : abs (stripTrailingSlashes inputRaw) = some inAbs)
    (h2 : abs outputRaw = some outAbs)
    (hmk : mkdirAll w (splitAbs outAbs).dropLast = .error e) :
    Compress inputRaw outputRaw abs srcFs w cfg = (.error e, w, []) := by
  simp only [Compress, h1, h2, hmk]

theorem lookupW_append (a b : World) (p : List Str) :
    lookupW (a ++ b) p =
      match lookupW a p with
      | some n => some n
      | none => lookupW b p := by
  induction a with
  | nil => rfl
  | cons x rest ih =>
    obtain ⟨q, n⟩ := x
    by_cases h : q = p
    · simp [lookupW, h]
    · simp [lookupW, h, ih]

theorem lookupW_filter_none (w : World) (f : List Str × DNode → Bool)
    (p : List Str) (h : lookupW w p = none) :
    lookupW (w.filter f) p = none := by
  induction w with
  | nil => rfl
  | cons x rest ih =>
    obtain ⟨q, n⟩ := x
    simp only [lookupW] at h
    by_cases hq : q = p
    · simp [hq] at h
    · rw [if_neg hq] at h
      cases hf : f (q, n) with
      | true => simp [List.filter_cons, hf, lookupW, hq, ih h]
      | false => simp [List.filter_cons, hf, lookupW, hq, ih h]

theorem lookupW_removeW_self (w : World) (p : List Str) :
    lookupW (removeW w p) p = none := by
  induction w with
  | nil => rfl
  | cons x rest ih =>
    obtain ⟨q, n⟩ := x
    by_cases hq : q = p
    · simpa [removeW, List.filter_cons, hq] using ih
    · simpa [removeW, List.filter_cons, hq, lookupW] using ih

theorem lookupW_removeW_ne (w : World) (p q : List Str) (h : q ≠ p) :
    lookupW (removeW w p) q = lookupW w q := by
  induction w with
  | nil => rfl
  | cons x rest ih =>
    obtain ⟨q', n⟩ := x
    show lookupW (List.filter _ ((q', n) :: rest)) q = _
    rw [List.filter_cons]
    by_cases hq : q' = p
    · have hnot : ¬ (q' = q) := by rw [hq]; exact fun hc => h hc.symm
      rw [if_neg (by simp [hq])]
      show _ = lookupW ((q', n) :: rest) q
      rw [lookupW, if_neg hnot]
      exact ih
    · rw [if_pos (by simp [hq])]
      show lookupW ((q', n) :: removeW rest p) q = lookupW ((q', n) :: rest) q
      by_cases hq2 : q' = q
      · rw [lookupW, if_pos hq2, lookupW, if_pos hq2]
      · rw [lookupW, if_neg hq2, lookupW, if_neg hq2]
        exact ih

theorem filterW_idem (l : World) (f : List Str × DNode → Bool) :
    (l.filter f).filter f = l.filter f := by
  induction l with
  | nil => rfl
  | cons x r ih =>
    cases hf : f x with
    | true => simp [List.filter_cons, hf, ih]
    | false => simp [List.filter_cons, hf, ih]

theorem removeW_setFileW (w : World) (p : List Str) (c : List Entry) :
    removeW (setFileW w p c) p = removeW w p := by
  unfold setFileW removeW
  rw [List.filter_append]
  have h1 : (List.filter (fun qn => qn.1 ≠ p)
      (List.filter (fun qn => qn.1 ≠ p) w)) = List.filter (fun qn => qn.1 ≠ p) w :=
    filterW_idem w _
  have h2 : List.filter (fun (qn : List Str × DNode) => qn.1 ≠ p)
      [(p, DNode.dnFile c)] = [] := by simp
  rw [h1, h2, List.append_nil]

theorem lookupW_setFileW_self (w : World) (p : List Str) (c : List Entry) :
    lookupW (setFileW w p c) p = some (.dnFile c) := by
  unfold setFileW
  rw [lookupW_append, lookupW_removeW_self]
  simp [lookupW]

theorem lookupW_eq_some_mem (w : World) (p : List Str) (n : DNode)
    (h : lookupW w p = some n) : (p, n) ∈ w := by
  induction w with
  | nil => simp [lookupW] at h
  | cons x rest ih =>
    obtain ⟨q, n'⟩ := x
    simp only [lookupW] at h
    by_cases hq : q = p
    · rw [if_pos hq] at h
      injection h with h
      simp [hq, h]
    · rw [if_neg hq] at h
      simp [ih h]

theorem lookupW_isSome_of_mem (w : World) (x : List Str × DNode)
    (h : x ∈ w) : ∃ n', lookupW w x.1 = some n' := by
  induction w with
  | nil => simp at h
  | cons y rest ih =>
    obtain ⟨q, n'⟩ := y
    rcases List.mem_cons.mp h with h | h
    · subst h
      exact ⟨n', by simp [lookupW]⟩
    · by_cases hq : q = x.1
      · exact ⟨n', by simp [lookupW, hq]⟩
      · obtain ⟨n2, hn2⟩ := ih h
        exact ⟨n2, by simpa [lookupW, hq] using hn2⟩

theorem wf_spec (w : World) (hwf : wfW w = true) (q0 : List Str) (n0 : DNode)
    (hmem : (q0, n0) ∈ w) (j : Nat) (hj0 : 0 < j) (hjl : j < q0.length) :
    lookupW w (q0.take j) = some .dnDir := by
  unfold wfW at hwf
  rw [List.all_eq_true] at hwf
  have h1 := hwf (q0, n0) hmem
  rw [List.all_eq_true] at h1
  dsimp only at h1
  have h2 := h1 (j - 1) (by rw [List.mem_range]; omega)
  have h3 : j - 1 + 1 = j := by omega
  rw [h3] at h2
  exact of_decide_eq_true h2

theorem wf_prefix_dir (w : World) (hwf : wfW w = true) (q0 : List Str)
    (n0 : DNode) (hmem : (q0, n0) ∈ w) (q : List Str) (hq : q <+: q0)
    (hne : q ≠ []) (hneq : q ≠ q0) : lookupW w q = some .dnDir := by
  have hlen : q.length < q0.length := by
    rcases Nat.lt_or_ge q.length q0.length with h | h
    · exact h
    · exact absurd (hq.eq_of_length_le h) hneq
  have htake : q0.take q.length = q := (List.prefix_iff_eq_take.mp hq).symm
  have h2 := wf_spec w hwf q0 n0 hmem q.length
    (List.length_pos.mpr hne) hlen
  rwa [htake] at h2

theorem prefix_dropLast_of_proper (q ud : List Str) (hq : q <+: ud)
    (hne : q ≠ ud) : q <+: ud.dropLast := by
  have hlt : q.length < ud.length := by
    rcases Nat.lt_or_ge q.length ud.length with h | h
    · exact h
    · exact absurd (hq.eq_of_length_le h) hne
  rw [List.prefix_iff_eq_take] at hq ⊢
  rw [List.dropLast_eq_take, List.take_take]
  have hmin : min q.length (ud.length - 1) = q.length := by omega
  rw [hmin]
  exact hq

theorem mkdirLoopFuel_error (w : World) :
    ∀ (fuel : Nat) (p : List Str) (u : Option (List Str)) (e : CErr),
    fuel = p.length → mkdirLoopFuel w fuel p u = .error e →
    e = .mkdirFail ∧ ∃ q c, q ≠ [] ∧ q <+: p ∧ lookupW w q = some (.dnFile c)
  | 0, p, u, e => by
    intro hf h
    simp [mkdirLoopFuel] at h
  | fuel + 1, p, u, e => by
    intro hf h
    unfold mkdirLoopFuel at h
    cases hl : lookupW w p with
    | none =>
      rw [hl] at h
      have hrec := mkdirLoopFuel_error w fuel p.dropLast (some p) e
        (by rw [List.length_dropLast]; omega) h
      obtain ⟨he, q, c, hq1, hq2, hq3⟩ := hrec
      exact ⟨he, q, c, hq1, hq2.trans (List.dropLast_prefix p), hq3⟩
    | some n =>
      cases n with
      | dnDir => rw [hl] at h; exact absurd h (by simp)
      | dnFile c =>
        rw [hl] at h
        injection h with h
        refine ⟨h.symm, p, c, ?_, List.prefix_rfl, hl⟩
        intro hc
        rw [hc] at hf
        simp at hf

theorem mkdirLoopFuel_ok (w : World) :
    ∀ (fuel : Nat) (p : List Str) (u r : Option (List Str)),
    fuel = p.length → mkdirLoopFuel w fuel p u = .ok r →
    (r = u ∧ (p = [] ∨ lookupW w p = some .dnDir)) ∨
    (∃ ud, r = some ud ∧ ud ≠ [] ∧ ud <+: p ∧ lookupW w ud = none ∧
      (ud.dropLast = [] ∨ lookupW w ud.dropLast = some .dnDir))
  | 0, p, u, r => by
    intro hf h
    unfold mkdirLoopFuel at h
    injection h with h
    left
    refine ⟨h.symm, Or.inl ?_⟩
    cases p with
    | nil => rfl
    | cons a q => simp at hf
  | fuel + 1, p, u, r => by
    intro hf h
    unfold mkdirLoopFuel at h
    have hp : p ≠ [] := by
      intro hc
      rw [hc] at hf
      simp at hf
    cases hl : lookupW w p with
    | some n =>
      cases n with
      | dnDir =>
        rw [hl] at h
        injection h with h
        exact Or.inl ⟨h.symm, Or.inr rfl⟩
      | dnFile c => rw [hl] at h; exact absurd h (by simp)
    | none =>
      rw [hl] at h
      have hrec := mkdirLoopFuel_ok w fuel p.dropLast (some p) r
        (by rw [List.length_dropLast]; omega) h
      rcases hrec with ⟨hr, hcase⟩ | ⟨ud, hr, hne, hpre, hnone, hup⟩
      · right
        refine ⟨p, hr, hp, List.prefix_rfl, hl, ?_⟩
        rcases hcase with hnil | hdir
        · exact Or.inl hnil
        · exact Or.inr hdir
      · right
        exact ⟨ud, hr, hne, hpre.trans (List.dropLast_prefix p), hnone, hup⟩

theorem rollback_mkdirCreate (w : World) (p ud : List Str)
    (hwf : wfW w = true)
    (hloop : mkdirLoop w p none = .ok (some ud)) :
    removeAllW (mkdirCreate w p) ud = w := by
  have hok := mkdirLoopFuel_ok w p.length p none (some ud) rfl hloop
  rcases hok with ⟨hr, _⟩ | ⟨ud2, hud2, hne, hpre, hnone, hup⟩
  · exact absurd hr (by simp)
  · have hinj : ud = ud2 := by injection hud2 with h
    subst hinj
    have hQ : ∀ q, q <+: p → q ≠ [] → lookupW w q = none → ud <+: q := by
      intro q hq hqne hqnone
      rcases List.prefix_or_prefix_of_prefix hq hpre with hcase | hcase
      · by_cases heq : q = ud
        · rw [heq]
        · exfalso
          have hqd : q <+: ud.dropLast := prefix_dropLast_of_proper q ud hcase heq
          rcases hup with hroot | hdir
          · rw [hroot] at hqd
            exact hqne (List.prefix_nil.mp hqd)
          · by_cases heq2 : q = ud.dropLast
            · rw [heq2, hdir] at hqnone
              exact Option.noConfusion hqnone
            · have hmem := lookupW_eq_some_mem w ud.dropLast .dnDir hdir
              have := wf_prefix_dir w hwf ud.dropLast .dnDir hmem q hqd hqne heq2
              rw [this] at hqnone
              exact Option.noConfusion hqnone
      · exact hcase
    unfold removeAllW mkdirCreate
    rw [List.filter_append]
    have h1 : w.filter (fun qn => ¬ ud.isPrefixOf qn.1) = w := by
      rw [List.filter_eq_self]
      intro a ha
      simp only [decide_eq_true_eq, List.isPrefixOf_iff_prefix]
      intro hcon
      by_cases heq : ud = a.1
      · obtain ⟨n2, hn2⟩ := lookupW_isSome_of_mem w a ha
        rw [← heq, hnone] at hn2
        exact Option.noConfusion hn2
      · obtain ⟨n2, hn2⟩ := lookupW_isSome_of_mem w a ha
        have hmem := lookupW_eq_some_mem w a.1 n2 hn2
        have := wf_prefix_dir w hwf a.1 n2 hmem ud hcon hne heq
        rw [this] at hnone
        exact Option.noConfusion hnone
    have h2 : (((prefixesOf p).filter (fun q => lookupW w q = none)).map
        (fun q => (q, DNode.dnDir))).filter (fun qn => ¬ ud.isPrefixOf qn.1) = [] := by
      rw [List.filter_eq_nil_iff]
      intro a ha
      rw [List.mem_map] at ha
      obtain ⟨q, hqmem, hqa⟩ := ha
      rw [List.mem_filter] at hqmem
      obtain ⟨hqpre, hqnone⟩ := hqmem
      unfold prefixesOf at hqpre
      rw [List.mem_map] at hqpre
      obtain ⟨k, hkmem, hkq⟩ := hqpre
      rw [List.mem_range] at hkmem
      have hqp : q <+: p := by rw [← hkq]; exact List.take_prefix _ _
      have hqne : q ≠ [] := by
        intro hc
        rw [hc] at hkq
        have : (p.take (k + 1)).length = 0 := by rw [hkq]; rfl
        rw [List.length_take] at this
        omega
      have hudq := hQ q hqp hqne (of_decide_eq_true hqnone)
      simp only [decide_eq_true_eq, List.isPrefixOf_iff_prefix, ← hqa]
      simp [hudq]
    rw [h1, h2, List.append_nil]

theorem mkdirAll_ok_cases (w : World) (p : List Str)
    (undo : Option (List Str)) (w1 : World)
    (h : mkdirAll w p = .ok (undo, w1)) :
    (undo = none ∧ w1 = w) ∨
    (∃ ud, undo = some ud ∧ w1 = mkdirCreate w p ∧
      mkdirLoop w p none = .ok (some ud)) := by
  unfold mkdirAll at h
  cases hl : mkdirLoop w p none with
  | error e => rw [hl] at h; exact absurd h (by simp)
  | ok r =>
    rw [hl] at h
    cases r with
    | none =>
      injection h with h
      injection h with h1 h2
      exact Or.inl ⟨h1.symm, h2.symm⟩
    | some ud =>
      injection h with h
      injection h with h1 h2
      exact Or.inr ⟨ud, h1.symm, h2.symm, rfl⟩

theorem mkdirAll_error_file_prefix (w : World) (p : List Str) (e : CErr)
    (h : mkdirAll w p = .error e) :
    e = .mkdirFail ∧ ∃ q c, q ≠ [] ∧ q <+: p ∧
      lookupW w q = some (.dnFile c) := by
  unfold mkdirAll at h
  cases hl : mkdirLoop w p none with
  | error e' =>
    rw [hl] at h
    injection h with h
    subst h
    exact mkdirLoopFuel_error w p.length p none e' rfl hl
  | ok r => rw [hl] at h; cases r <;> exact absurd h (by simp)

theorem filterW_comm (l : World) (f g : List Str × DNode → Bool) :
    (l.filter g).filter f = (l.filter f).filter g := by
  induction l with
  | nil => rfl
  | cons x r ih =>
    cases hf : f x <;> cases hg : g x <;>
      simp [List.filter_cons, hf, hg, ih]

theorem compress_eq_cons (inPath : Str) (m : Nat) (n : Str) (child : FNode)
    (rest : FEntries) (w : World) (outP : List Str) (sub : Str) (cfg : Cfg) :
    compress inPath (some (.dir m true (.cons n child rest))) w outP sub cfg =
      match lookupW w outP with
      | some .dnDir => (.error .createFail, w, [])
      | _ =>
        match writeDirectory inPath (.dir m true (.cons n child rest)) sub
            cfg.budget with
        | .error e =>
          (.error e, removeW (setFileW w outP []) outP, [.create, .removeDest])
        | .ok (entries, _) =>
          if cfg.tarCloseOk then
            if cfg.gzipCloseOk then
              if cfg.fileCloseOk then
                (.ok (), setFileW (setFileW w outP []) outP entries,
                 [.create, .closeTar, .closeGzip, .closeFile])
              else
                (.error .closeFileFail,
                 removeW (setFileW (setFileW w outP []) outP entries) outP,
                 [.create, .closeTar, .closeGzip, .closeFile, .removeDest])
            else
              (.error .closeGzipFail,
               removeW (setFileW (setFileW w outP []) outP entries) outP,
               [.create, .closeTar, .closeGzip, .removeDest])
          else
            (.error .closeTarFail,
             removeW (setFileW (setFileW w outP []) outP entries) outP,
             [.create, .closeTar, .removeDest]) := rfl

theorem compress_badSrc (inPath : Str) (src : Option FNode) (w : World)
    (outP : List Str) (sub : Str) (cfg : Cfg)
    (h : srcListingBad src = true) :
    ∃ e, compress inPath src w outP sub cfg = (.error e, w, []) := by
  cases src with
  | none => exact ⟨.readDirFail, rfl⟩
  | some node =>
    cases node with
    | file m c r => exact ⟨.readDirFail, rfl⟩
    | symlink m t r => exact ⟨.readDirFail, rfl⟩
    | socket m => exact ⟨.readDirFail, rfl⟩
    | dir m r es =>
      cases r with
      | false => exact ⟨.readDirFail, rfl⟩
      | true =>
        cases es with
        | nil => exact ⟨.emptySource, rfl⟩
        | cons n child rest => simp [srcListingBad] at h

theorem compress_spec (inPath : Str) (src : Option FNode) (w : World)
    (outP : List Str) (sub : Str) (cfg : Cfg) :
    (∃ e, (e = CErr.readDirFail ∨ e = CErr.emptySource ∨ e = CErr.createFail) ∧
      compress inPath src w outP sub cfg = (.error e, w, [])) ∨
    (∃ e tr, compress inPath src w outP sub cfg =
        (.error e, removeW w outP, tr) ∧ Ev.create ∈ tr) ∨
    (∃ es, compress inPath src w outP sub cfg =
      (.ok (), setFileW (setFileW w outP []) outP es,
       [.create, .closeTar, .closeGzip, .closeFile])) := by
  cases src with
  | none => exact Or.inl ⟨.readDirFail, Or.inl rfl, rfl⟩
  | some node =>
    cases node with
    | file m c r => exact Or.inl ⟨.readDirFail, Or.inl rfl, rfl⟩
    | symlink m t r => exact Or.inl ⟨.readDirFail, Or.inl rfl, rfl⟩
    | socket m => exact Or.inl ⟨.readDirFail, Or.inl rfl, rfl⟩
    | dir m r es =>
      cases r with
      | false => exact Or.inl ⟨.readDirFail, Or.inl rfl, rfl⟩
      | true =>
        cases es with
        | nil => exact Or.inl ⟨.emptySource, Or.inr (Or.inl rfl), rfl⟩
        | cons n child rest =>
          rw [compress_eq_cons]
          cases hlk : lookupW w outP with
          | some nd =>
            cases nd with
            | dnDir => exact Or.inl ⟨.createFail, Or.inr (Or.inr rfl), rfl⟩
            | dnFile c =>
              cases hwd : writeDirectory inPath (.dir m true (.cons n child rest))
                  sub cfg.budget with
              | error e =>
                refine Or.inr (Or.inl ⟨e, [.create, .removeDest], ?_, by simp⟩)
                dsimp only
                rw [removeW_setFileW]
              | ok pr =>
                obtain ⟨entries, b2⟩ := pr
                cases hct : cfg.tarCloseOk with
                | false =>
                  refine Or.inr (Or.inl ⟨.closeTarFail,
                    [.create, .closeTar, .removeDest], ?_, by simp⟩)
                  dsimp only
                  simp [removeW_setFileW]
                | true =>
                  cases hcg : cfg.gzipCloseOk with
                  | false =>
                    refine Or.inr (Or.inl ⟨.closeGzipFail,
                      [.create, .closeTar, .closeGzip, .removeDest], ?_, by simp⟩)
                    dsimp only
                    simp [removeW_setFileW]
                  | true =>
                    cases hcf : cfg.fileCloseOk with
                    | false =>
                      refine Or.inr (Or.inl ⟨.closeFileFail,
                        [.create, .closeTar, .closeGzip, .closeFile, .removeDest],
                        ?_, by simp⟩)
                      dsimp only
                      simp [removeW_setFileW]
                    | true => exact Or.inr (Or.inr ⟨entries, rfl⟩)
          | none =>
            cases hwd : writeDirectory inPath (.dir m true (.cons n child rest))
                sub cfg.budget with
            | error e =>
              refine Or.inr (Or.inl ⟨e, [.create, .removeDest], ?_, by simp⟩)
              dsimp only
              rw [removeW_setFileW]
            | ok pr =>
              obtain ⟨entries, b2⟩ := pr
              cases hct : cfg.tarCloseOk with
              | false =>
                refine Or.inr (Or.inl ⟨.closeTarFail,
                  [.create, .closeTar, .removeDest], ?_, by simp⟩)
                dsimp only
                simp [removeW_setFileW]
              | true =>
                cases hcg : cfg.gzipCloseOk with
                | false =>
                  refine Or.inr (Or.inl ⟨.closeGzipFail,
                    [.create, .closeTar, .closeGzip, .removeDest], ?_, by simp⟩)
                  dsimp only
                  simp [removeW_setFileW]
                | true =>
                  cases hcf : cfg.fileCloseOk with
                  | false =>
                    refine Or.inr (Or.inl ⟨.closeFileFail,
                      [.create, .closeTar, .closeGzip, .closeFile, .removeDest],
                      ?_, by simp⟩)
                    dsimp only
                    simp [removeW_setFileW]
                  | true => exact Or.inr (Or.inr ⟨entries, rfl⟩)

/-- C5: for every symbolic link encountered during traversal, the target
path read from the link is recorded verbatim as the link metadata of a
link-typed header, and no content is written for the entry (the target is
not dereferenced). -/
theorem c5_symlink_recorded_not_followed (p sub : Str) (m : Nat) (t : Str) :
    writeTarGz p (.symlink m t true) sub none =
      .ok ([{ name := p.drop sub.length, typ := .link, mode := m,
              link := t, content := none }], none) := rfl

theorem writeEntries_socket_spliced (p sub : Str) (es2 : FEntries) (n : Str)
    (m : Nat) :
    ∀ (es1 : FEntries) (b : Budget),
    writeEntries p (es1.append (.cons n (.socket m) es2)) sub b =
    writeEntries p (es1.append es2) sub b
  | .nil, b => by
    simp only [FEntries.append]
    rw [writeEntries_cons]
    cases hw : writeEntries p es2 sub b with
    | error e => simp [childStep, writeTarGz, hw]
    | ok r => cases r; simp [childStep, writeTarGz, hw]
  | .cons n' x rest, b => by
    simp only [FEntries.append]
    rw [writeEntries_cons, writeEntries_cons]
    cases hc : childStep p n' x sub b with
    | error e => rfl
    | ok r =>
      obtain ⟨out1, b1⟩ := r
      dsimp only
      rw [writeEntries_socket_spliced p sub es2 n m rest b1]

/-- C6: a socket child is silently skipped: the traversal of a child list
containing a socket produces exactly the result of the traversal of the
same list without the socket — no record, no error, no budget consumed. -/
theorem c6_socket_silently_skipped (p sub : Str) (es1 es2 : FEntries)
    (n : Str) (m : Nat) (b : Budget) :
    writeEntries p (es1.append (.cons n (.socket m) es2)) sub b =
    writeEntries p (es1.append es2) sub b :=
  writeEntries_socket_spliced p sub es2 n m es1 b

/-- C8: when the requested parent directory already exists, mkdirAll
succeeds, creates nothing, registers no rollback target, and leaves the
world unchanged — hence a second call behaves exactly like the first, and
no already-exists error is possible (the model has no such error kind: the
stat loop breaks on an existing directory). -/
theorem c8_existing_parent_mkdirAll_noop (w : World) (p : List Str)
    (h : statW w p = some .dnDir) : mkdirAll w p = .ok (none, w) := by
  have hloop : mkdirLoop w p none = .ok none := by
    unfold mkdirLoop
    cases p with
    | nil => rfl
    | cons a q =>
      rw [statW, if_neg (by simp)] at h
      simp [mkdirLoopFuel, h]
  unfold mkdirAll
  rw [hloop]

/-- Witness for C8 at a concrete world. -/
theorem c8_witness :
    statW exampleWorld [str "tmp"] = some .dnDir ∧
    mkdirAll exampleWorld [str "tmp"] = .ok (none, exampleWorld) :=
  ⟨by decide, c8_existing_parent_mkdirAll_noop _ _ (by decide)⟩

/-- Counterexample to C9 as stated: a source path ending in two separators
keeps one of them, so not all trailing separators are removed. -/
theorem c9_counterexample :
    stripTrailingSlashes (str "dir//") = str "dir/" ∧
    stripTrailingSlashes (str "dir//") ≠ str "dir" := by decide

/-- C9 corrected: before any I/O Compress strips at most one trailing
separator from the source path (exactly the last character when it is a
separator), then resolves both paths; if either resolution fails the error
is returned with the filesystem untouched and no event emitted. -/
theorem c9_strip_one_separator_and_abort_on_resolution_failure
    (inputRaw outputRaw s : Str) (c : Char) (abs : Str → Option Str)
    (srcFs : Str → Option FNode) (w : World) (cfg : Cfg) :
    (stripTrailingSlashes (s ++ [c]) = if c = '/' then s else s ++ [c]) ∧
    (abs (stripTrailingSlashes inputRaw) = none →
      Compress inputRaw outputRaw abs srcFs w cfg = (.error .absFail, w, [])) ∧
    (∀ inAbs, abs (stripTrailingSlashes inputRaw) = some inAbs →
      abs outputRaw = none →
      Compress inputRaw outputRaw abs srcFs w cfg = (.error .absFail, w, [])) := by
  refine ⟨?_, ?_, ?_⟩
  · by_cases hc : c = '/'
    · simp [stripTrailingSlashes, hc]
    · simp [stripTrailingSlashes, hc]
  · intro h
    simp only [Compress, h]
  · intro inAbs h1 h2
    simp only [Compress, h1, h2]

/-- Witness for C9 corrected. -/
theorem c9_witness :
    (stripTrailingSlashes (str "a" ++ ['/']) = str "a") ∧
    Compress (str "a/") (str "b") (fun _ => none) (fun _ => none) [] cfgOk =
      (.error .absFail, [], []) := by
  have h := c9_strip_one_separator_and_abort_on_resolution_failure
    (str "a/") (str "b") (str "a") '/' (fun _ => none) (fun _ => none) [] cfgOk
  exact ⟨by simpa using h.1, h.2.1 rfl⟩

/-- C4: an existing, readable but empty source directory makes Compress
return an error; when the destination parents can be set up, that error is
precisely the empty-input error of targz.go:119 (the reject policy). -/
theorem c4_empty_source_reports_error (inputRaw outputRaw inAbs outAbs : Str)
    (abs : Str → Option Str) (srcFs : Str → Option FNode) (w : World)
    (cfg : Cfg) (m : Nat)
    (habsIn : abs (stripTrailingSlashes inputRaw) = some inAbs)
    (habsOut : abs outputRaw = some outAbs)
    (hsrc : srcFs inAbs = some (.dir m true .nil)) :
    (∃ e, (Compress inputRaw outputRaw abs srcFs w cfg).1 = .error e) ∧
    (∀ undo w1, mkdirAll w (splitAbs outAbs).dropLast = .ok (undo, w1) →
      (Compress inputRaw outputRaw abs srcFs w cfg).1 = .error .emptySource) := by
  have main : ∀ undo w1,
      mkdirAll w (splitAbs outAbs).dropLast = .ok (undo, w1) →
      (Compress inputRaw outputRaw abs srcFs w cfg).1 = .error .emptySource := by
    intro undo w1 hmk
    rw [Compress_eq inputRaw outputRaw inAbs outAbs abs srcFs w w1 cfg undo
      habsIn habsOut hmk, hsrc, compress_emptySource]
    cases undo <;> rfl
  refine ⟨?_, main⟩
  cases hmk : mkdirAll w (splitAbs outAbs).dropLast with
  | error e =>
    exact ⟨e, by rw [Compress_mkdirFail inputRaw outputRaw inAbs outAbs abs
      srcFs w cfg e habsIn habsOut hmk]⟩
  | ok r =>
    exact ⟨.emptySource, main r.1 r.2 (by rw [hmk])⟩

/-- Witness for C4: the example world with an empty source directory. -/
theorem c4_witness :
    (Compress (str "/tmp/my_folder") (str "/tmp/out/my_archive.tar.gz")
      exampleAbs (fun s => if s = str "/tmp/my_folder"
                           then some (.dir 493 true .nil) else none)
      exampleWorld cfgOk).1 = .error .emptySource := by
  have h := c4_empty_source_reports_error (str "/tmp/my_folder")
    (str "/tmp/out/my_archive.tar.gz") (str "/tmp/my_folder")
    (str "/tmp/out/my_archive.tar.gz") exampleAbs
    (fun s => if s = str "/tmp/my_folder" then some (.dir 493 true .nil) else none)
    exampleWorld cfgOk 493 (by decide) (by decide) rfl
  exact h.2 (some [str "tmp", str "out"])
    (exampleWorld ++ [([str "tmp", str "out"], DNode.dnDir)]) rfl

/-- C10: when the initial listing of the source directory fails or comes
back empty, Compress errors out, never creates or truncates the
destination file (no create event), and leaves the whole destination
filesystem exactly as it was — in particular a pre-existing file at the
destination path keeps its content byte for byte. -/
theorem c10_no_output_when_listing_fails_or_empty
    (inputRaw outputRaw inAbs outAbs : Str) (abs : Str → Option Str)
    (srcFs : Str → Option FNode) (w : World) (cfg : Cfg)
    (hwf : wfW w = true)
    (habsIn : abs (stripTrailingSlashes inputRaw) = some inAbs)
    (habsOut : abs outputRaw = some outAbs)
    (hbad : srcListingBad (srcFs inAbs) = true) :
    (∃ e, (Compress inputRaw outputRaw abs srcFs w cfg).1 = .error e) ∧
    Ev.create ∉ (Compress inputRaw outputRaw abs srcFs w cfg).2.2 ∧
    (Compress inputRaw outputRaw abs srcFs w cfg).2.1 = w := by
  cases hmk : mkdirAll w (splitAbs outAbs).dropLast with
  | error e =>
    rw [Compress_mkdirFail inputRaw outputRaw inAbs outAbs abs srcFs w cfg e
      habsIn habsOut hmk]
    exact ⟨⟨e, rfl⟩, by simp, rfl⟩
  | ok r =>
    obtain ⟨undo, w1⟩ := r
    obtain ⟨e0, hc⟩ := compress_badSrc inAbs (srcFs inAbs) w1 (splitAbs outAbs)
      (goDir inAbs) cfg hbad
    rw [Compress_eq inputRaw outputRaw inAbs outAbs abs srcFs w w1 cfg undo
      habsIn habsOut hmk, hc]
    rcases mkdirAll_ok_cases w (splitAbs outAbs).dropLast undo w1 hmk with
      ⟨hu, hw⟩ | ⟨ud, hu, hw, hloop⟩
    · subst hu
      subst hw
      exact ⟨⟨e0, rfl⟩, by simp, rfl⟩
    · subst hu
      subst hw
      have hr := rollback_mkdirCreate w (splitAbs outAbs).dropLast ud hwf hloop
      refine ⟨⟨e0, rfl⟩, by simp, ?_⟩
      dsimp only
      rw [hr]

/-- Witness for C10: unreadable source directory, pre-existing destination
file with content, nothing changes. -/
theorem c10_witness :
    let w0 : World := [([str "tmp"], .dnDir),
      ([str "tmp", str "out.tar.gz"],
       .dnFile [{ name := str "old", typ := .reg, mode := 0, link := [],
                  content := some (str "old") }])]
    (∃ e, (Compress (str "/src") (str "/tmp/out.tar.gz")
        (fun s => if s = str "/src" then some (str "/src")
                  else if s = str "/tmp/out.tar.gz" then some (str "/tmp/out.tar.gz")
                  else none)
        (fun s => if s = str "/src" then some (.dir 493 false .nil) else none)
        w0 cfgOk).1 = .error e) ∧
    Ev.create ∉ (Compress (str "/src") (str "/tmp/out.tar.gz")
        (fun s => if s = str "/src" then some (str "/src")
                  else if s = str "/tmp/out.tar.gz" then some (str "/tmp/out.tar.gz")
                  else none)
        (fun s => if s = str "/src" then some (.dir 493 false .nil) else none)
        w0 cfgOk).2.2 ∧
    (Compress (str "/src") (str "/tmp/out.tar.gz")
        (fun s => if s = str "/src" then some (str "/src")
                  else if s = str "/tmp/out.tar.gz" then some (str "/tmp/out.tar.gz")
                  else none)
        (fun s => if s = str "/src" then some (.dir 493 false .nil) else none)
        w0 cfgOk).2.1 = w0 := by
  intro w0
  exact c10_no_output_when_listing_fails_or_empty (str "/src")
    (str "/tmp/out.tar.gz") (str "/src") (str "/tmp/out.tar.gz") _ _ w0 cfgOk
    (by decide) rfl rfl rfl

/-- C3: after an error raised once Compress has started creating output
(unreadable source entry, write error mid-stream, any close failure) or by
an invalid destination parent, the destination file does not exist, every
parent directory created by this call is gone, and every pre-existing
binding other than the destination path is untouched. -/
theorem c3_failure_rolls_back_artifacts
    (inputRaw outputRaw inAbs outAbs : Str) (abs : Str → Option Str)
    (srcFs : Str → Option FNode) (w w' : World) (cfg : Cfg) (e : CErr)
    (tr : List Ev)
    (hwf : wfW w = true)
    (habsIn : abs (stripTrailingSlashes inputRaw) = some inAbs)
    (habsOut : abs outputRaw = some outAbs)
    (hrun : Compress inputRaw outputRaw abs srcFs w cfg = (.error e, w', tr))
    (hscope : Ev.create ∈ tr ∨ e = .mkdirFail) :
    lookupW w' (splitAbs outAbs) = none ∧
    (∀ q, lookupW w q = none → lookupW w' q = none) ∧
    (∀ q n, q ≠ splitAbs outAbs → lookupW w q = some n →
      lookupW w' q = some n) := by
  have main : w' = removeW w (splitAbs outAbs) ∨
      (w' = w ∧ lookupW w (splitAbs outAbs) = none) := by
    cases hmk : mkdirAll w (splitAbs outAbs).dropLast with
    | error em =>
      have hcp := Compress_mkdirFail inputRaw outputRaw inAbs outAbs abs srcFs
        w cfg em habsIn habsOut hmk
      rw [hcp] at hrun
      have he : em = e := congrArg (fun t => match t.1 with
        | .error x => x | .ok _ => em) hrun
      have hw' : w = w' := congrArg (fun t => t.2.1) hrun
      have htr : ([] : List Ev) = tr := congrArg (fun t => t.2.2) hrun
      have hefail : e = .mkdirFail := by
        rcases hscope with hin | hem
        · rw [← htr] at hin
          simp at hin
        · exact hem
      obtain ⟨_, q, c, hq1, hq2, hq3⟩ := mkdirAll_error_file_prefix w
        (splitAbs outAbs).dropLast em hmk
      refine Or.inr ⟨hw'.symm, ?_⟩
      by_cases hdest : lookupW w (splitAbs outAbs) = none
      · exact hdest
      · exfalso
        obtain ⟨nd, hnd⟩ := Option.ne_none_iff_exists'.mp hdest
        have hmem := lookupW_eq_some_mem w (splitAbs outAbs) nd hnd
        have hqpre : q <+: splitAbs outAbs :=
          hq2.trans (List.dropLast_prefix _)
        have hqne : q ≠ splitAbs outAbs := by
          intro hcq
          have h1 := hq2.length_le
          rw [hcq, List.length_dropLast] at h1
          have h2 : splitAbs outAbs ≠ [] := by
            intro hc
            rw [hcq, hc] at hq1
            exact hq1 rfl
          have h3 : 0 < (splitAbs outAbs).length := List.length_pos.mpr h2
          omega
        have := wf_prefix_dir w hwf (splitAbs outAbs) nd hmem q hqpre hq1 hqne
        rw [this] at hq3
        simp at hq3
    | ok r =>
      obtain ⟨undo, w1⟩ := r
      have hcp := Compress_eq inputRaw outputRaw inAbs outAbs abs srcFs w w1
        cfg undo habsIn habsOut hmk
      rcases compress_spec inAbs (srcFs inAbs) w1 (splitAbs outAbs)
          (goDir inAbs) cfg with
        ⟨e0, he0, hc⟩ | ⟨e0, tr0, hc, hcr⟩ | ⟨es, hc⟩
      · rw [hc] at hcp
        rw [hcp] at hrun
        cases undo with
        | none =>
          dsimp only at hrun
          have htr : ([] : List Ev) = tr := congrArg (fun t => t.2.2) hrun
          have he : e0 = e := by
            have := congrArg (fun t => t.1) hrun
            dsimp only at this
            injection this with h
          exfalso
          rcases hscope with hin | hem
          · rw [← htr] at hin
            simp at hin
          · rw [← he] at hem
            rcases he0 with h | h | h <;> rw [h] at hem <;> exact
              CErr.noConfusion hem
        | some ud =>
          dsimp only at hrun
          have htr : ([] : List Ev) = tr := congrArg (fun t => t.2.2) hrun
          have he : e0 = e := by
            have := congrArg (fun t => t.1) hrun
            dsimp only at this
            injection this with h
          exfalso
          rcases hscope with hin | hem
          · rw [← htr] at hin
            simp at hin
          · rw [← he] at hem
            rcases he0 with h | h | h <;> rw [h] at hem <;> exact
              CErr.noConfusion hem
      · rw [hc] at hcp
        rw [hcp] at hrun
        rcases mkdirAll_ok_cases w (splitAbs outAbs).dropLast undo w1 hmk with
          ⟨hu, hw⟩ | ⟨ud, hu, hw, hloop⟩
        · subst hu
          dsimp only at hrun
          have hw' : removeW w1 (splitAbs outAbs) = w' :=
            congrArg (fun t => t.2.1) hrun
          rw [hw] at hw'
          exact Or.inl hw'.symm
        · subst hu
          dsimp only at hrun
          have hw' : removeAllW (removeW w1 (splitAbs outAbs)) ud = w' :=
            congrArg (fun t => t.2.1) hrun
          rw [hw] at hw'
          have hcomm : removeAllW (removeW (mkdirCreate w (splitAbs outAbs).dropLast)
              (splitAbs outAbs)) ud =
              removeW (removeAllW (mkdirCreate w (splitAbs outAbs).dropLast) ud)
                (splitAbs outAbs) := by
            unfold removeAllW removeW
            exact filterW_comm _ _ _
          have hr := rollback_mkdirCreate w (splitAbs outAbs).dropLast ud hwf hloop
          rw [hcomm, hr] at hw'
          exact Or.inl hw'.symm
      · rw [hc] at hcp
        rw [hcp] at hrun
        exfalso
        have := congrArg (fun t => t.1) hrun
        dsimp only at this
        exact Except.noConfusion this
  rcases main with hmain | ⟨hmain, hnone⟩
  · subst hmain
    refine ⟨lookupW_removeW_self w _, ?_, ?_⟩
    · intro q hq
      by_cases hqd : q = splitAbs outAbs
      · subst hqd
        exact lookupW_removeW_self w _
      · rw [lookupW_removeW_ne w _ q hqd]
        exact hq
    · intro q n hqd hq
      rw [lookupW_removeW_ne w _ q hqd]
      exact hq
  · subst hmain
    exact ⟨hnone, fun q hq => hq, fun q n _ hq => hq⟩

/-- Witness for C3: a write failure is injected after the output file was
created under a freshly created parent directory; afterwards neither the
file nor the created parent exists and the pre-existing parent is intact. -/
theorem c3_witness :
    lookupW ([([str "tmp"], DNode.dnDir)] : World)
        (splitAbs (str "/tmp/new/out.tar.gz")) = none ∧
    lookupW ([([str "tmp"], DNode.dnDir)] : World) [str "tmp"] =
      some DNode.dnDir := by
  have h := c3_failure_rolls_back_artifacts (str "/src")
    (str "/tmp/new/out.tar.gz") (str "/src") (str "/tmp/new/out.tar.gz")
    (fun s => if s = str "/src" then some (str "/src")
              else if s = str "/tmp/new/out.tar.gz"
              then some (str "/tmp/new/out.tar.gz") else none)
    (fun s => if s = str "/src"
              then some (.dir 493 true
                (.cons (str "f") (.file 420 (str "x") true) .nil))
              else none)
    [([str "tmp"], DNode.dnDir)] [([str "tmp"], DNode.dnDir)]
    { budget := some 0, tarCloseOk := true, gzipCloseOk := true,
      fileCloseOk := true }
    CErr.writeFail [Ev.create, Ev.removeDest]
    (by decide) rfl rfl rfl (Or.inl (by simp))
  exact ⟨h.1, h.2.2 [str "tmp"] DNode.dnDir (by decide) rfl⟩

theorem compress_outcomes (inPath : Str) (src : Option FNode) (w : World)
    (outP : List Str) (sub : Str) (cfg : Cfg) :
    (∃ e, compress inPath src w outP sub cfg = (.error e, w, [])) ∨
    (∃ e, compress inPath src w outP sub cfg =
      (.error e, removeW w outP, [.create, .removeDest])) ∨
    (∃ node es b2, src = some node ∧
      writeDirectory inPath node sub cfg.budget = .ok (es, b2) ∧
      ((cfg.tarCloseOk = false ∧ compress inPath src w outP sub cfg =
          (.error .closeTarFail, removeW w outP,
           [.create, .closeTar, .removeDest])) ∨
       (cfg.tarCloseOk = true ∧ cfg.gzipCloseOk = false ∧
          compress inPath src w outP sub cfg =
          (.error .closeGzipFail, removeW w outP,
           [.create, .closeTar, .closeGzip, .removeDest])) ∨
       (cfg.tarCloseOk = true ∧ cfg.gzipCloseOk = true ∧
          cfg.fileCloseOk = false ∧
          compress inPath src w outP sub cfg =
          (.error .closeFileFail, removeW w outP,
           [.create, .closeTar, .closeGzip, .closeFile, .removeDest])) ∨
       (cfg.tarCloseOk = true ∧ cfg.gzipCloseOk = true ∧
          cfg.fileCloseOk = true ∧
          compress inPath src w outP sub cfg =
          (.ok (), setFileW (setFileW w outP []) outP es,
           [.create, .closeTar, .closeGzip, .closeFile])))) := by
  cases src with
  | none => exact Or.inl ⟨.readDirFail, rfl⟩
  | some node =>
    cases node with
    | file m c r => exact Or.inl ⟨.readDirFail, rfl⟩
    | symlink m t r => exact Or.inl ⟨.readDirFail, rfl⟩
    | socket m => exact Or.inl ⟨.readDirFail, rfl⟩
    | dir m r es =>
      cases r with
      | false => exact Or.inl ⟨.readDirFail, rfl⟩
      | true =>
        cases es with
        | nil => exact Or.inl ⟨.emptySource, rfl⟩
        | cons n child rest =>
          rw [compress_eq_cons]
          cases hlk : lookupW w outP with
          | some nd =>
            cases nd with
            | dnDir => exact Or.inl ⟨.createFail, rfl⟩
            | dnFile c =>
              cases hwd : writeDirectory inPath
                  (.dir m true (.cons n child rest)) sub cfg.budget with
              | error e =>
                refine Or.inr (Or.inl ⟨e, ?_⟩)
                dsimp only
                rw [removeW_setFileW]
              | ok pr =>
                obtain ⟨entries, b2⟩ := pr
                refine Or.inr (Or.inr ⟨_, entries, b2, rfl, hwd, ?_⟩)
                cases hct : cfg.tarCloseOk with
                | false =>
                  refine Or.inl ⟨rfl, ?_⟩
                  dsimp only
                  simp [removeW_setFileW]
                | true =>
                  cases hcg : cfg.gzipCloseOk with
                  | false =>
                    refine Or.inr (Or.inl ⟨rfl, rfl, ?_⟩)
                    dsimp only
                    simp [removeW_setFileW]
                  | true =>
                    cases hcf : cfg.fileCloseOk with
                    | false =>
                      refine Or.inr (Or.inr (Or.inl ⟨rfl, rfl, rfl, ?_⟩))
                      dsimp only
                      simp [removeW_setFileW]
                    | true =>
                      refine Or.inr (Or.inr (Or.inr ⟨rfl, rfl, rfl, ?_⟩))
                      dsimp only
                      simp
          | none =>
            cases hwd : writeDirectory inPath
                (.dir m true (.cons n child rest)) sub cfg.budget with
            | error e =>
              refine Or.inr (Or.inl ⟨e, ?_⟩)
              dsimp only
              rw [removeW_setFileW]
            | ok pr =>
              obtain ⟨entries, b2⟩ := pr
              refine Or.inr (Or.inr ⟨_, entries, b2, rfl, hwd, ?_⟩)
              cases hct : cfg.tarCloseOk with
              | false =>
                refine Or.inl ⟨rfl, ?_⟩
                dsimp only
                simp [removeW_setFileW]
              | true =>
                cases hcg : cfg.gzipCloseOk with
                | false =>
                  refine Or.inr (Or.inl ⟨rfl, rfl, ?_⟩)
                  dsimp only
                  simp [removeW_setFileW]
                | true =>
                  cases hcf : cfg.fileCloseOk with
                  | false =>
                    refine Or.inr (Or.inr (Or.inl ⟨rfl, rfl, rfl, ?_⟩))
                    dsimp only
                    simp [removeW_setFileW]
                  | true =>
                    refine Or.inr (Or.inr (Or.inr ⟨rfl, rfl, rfl, ?_⟩))
                    dsimp only
                    simp

theorem lookupW_removeAllW_none (x : World) (ud q : List Str)
    (h : lookupW x q = none) : lookupW (removeAllW x ud) q = none :=
  lookupW_filter_none x _ q h

/-- A close-failure configuration used as the C7 witness. -/
def cfgGzipFail : Cfg := { budget := none, tarCloseOk := true,
                           gzipCloseOk := false, fileCloseOk := true }

/-- C7: the close events in the trace are always an in-order prefix of
tar-then-gzip-then-file; the tar close is only reached after the whole
tree was written; and when the injected failure of one of the three closes
is reached, Compress returns exactly that close error and the destination
file does not exist afterwards. -/
theorem c7_close_order_and_cleanup
    (inputRaw outputRaw inAbs outAbs : Str) (abs : Str → Option Str)
    (srcFs : Str → Option FNode) (w w' : World) (cfg : Cfg)
    (r : Except CErr Unit) (tr : List Ev)
    (habsIn : abs (stripTrailingSlashes inputRaw) = some inAbs)
    (habsOut : abs outputRaw = some outAbs)
    (hrun : Compress inputRaw outputRaw abs srcFs w cfg = (r, w', tr)) :
    (tr.filter isClose = [] ∨ tr.filter isClose = [.closeTar] ∨
     tr.filter isClose = [.closeTar, .closeGzip] ∨
     tr.filter isClose = [.closeTar, .closeGzip, .closeFile]) ∧
    (Ev.closeTar ∈ tr → ∃ node es b2, srcFs inAbs = some node ∧
      writeDirectory inAbs node (goDir inAbs) cfg.budget = .ok (es, b2)) ∧
    (cfg.tarCloseOk = false → Ev.closeTar ∈ tr →
      r = .error .closeTarFail ∧ lookupW w' (splitAbs outAbs) = none) ∧
    (cfg.tarCloseOk = true → cfg.gzipCloseOk = false → Ev.closeGzip ∈ tr →
      r = .error .closeGzipFail ∧ lookupW w' (splitAbs outAbs) = none) ∧
    (cfg.tarCloseOk = true → cfg.gzipCloseOk = true → cfg.fileCloseOk = false →
      Ev.closeFile ∈ tr → r = .error .closeFileFail ∧
      lookupW w' (splitAbs outAbs) = none) := by
  cases hmk : mkdirAll w (splitAbs outAbs).dropLast with
  | error em =>
    have hcp := Compress_mkdirFail inputRaw outputRaw inAbs outAbs abs srcFs
      w cfg em habsIn habsOut hmk
    rw [hcp] at hrun
    simp only [Prod.mk.injEq] at hrun
    obtain ⟨hr, hw', htr⟩ := hrun
    subst hr; subst hw'; subst htr
    exact ⟨Or.inl rfl, fun hmem => absurd hmem (by simp),
      fun _ hmem => absurd hmem (by simp),
      fun _ _ hmem => absurd hmem (by simp),
      fun _ _ _ hmem => absurd hmem (by simp)⟩
  | ok rr =>
    obtain ⟨undo, w1⟩ := rr
    have hcp := Compress_eq inputRaw outputRaw inAbs outAbs abs srcFs w w1
      cfg undo habsIn habsOut hmk
    rcases compress_outcomes inAbs (srcFs inAbs) w1 (splitAbs outAbs)
        (goDir inAbs) cfg with
      ⟨e0, hc⟩ | ⟨e0, hc⟩ | ⟨node, es, b2, hsrc, hwd, hrest⟩
    · rw [hc] at hcp
      have hfin : ∃ wfin, Compress inputRaw outputRaw abs srcFs w cfg =
          (.error e0, wfin, []) := by
        cases undo with
        | none => dsimp only at hcp; exact ⟨w1, hcp⟩
        | some ud => dsimp only at hcp; exact ⟨removeAllW w1 ud, hcp⟩
      obtain ⟨wfin, hcp2⟩ := hfin
      rw [hcp2] at hrun
      simp only [Prod.mk.injEq] at hrun
      obtain ⟨hr, hw', htr⟩ := hrun
      subst hr; subst hw'; subst htr
      exact ⟨Or.inl rfl, fun hmem => absurd hmem (by simp),
        fun _ hmem => absurd hmem (by simp),
        fun _ _ hmem => absurd hmem (by simp),
        fun _ _ _ hmem => absurd hmem (by simp)⟩
    · rw [hc] at hcp
      have hfin : ∃ wfin, Compress inputRaw outputRaw abs srcFs w cfg =
          (.error e0, wfin, [.create, .removeDest]) := by
        cases undo with
        | none => dsimp only at hcp; exact ⟨removeW w1 (splitAbs outAbs), hcp⟩
        | some ud =>
          dsimp only at hcp
          exact ⟨removeAllW (removeW w1 (splitAbs outAbs)) ud, hcp⟩
      obtain ⟨wfin, hcp2⟩ := hfin
      rw [hcp2] at hrun
      simp only [Prod.mk.injEq] at hrun
      obtain ⟨hr, hw', htr⟩ := hrun
      subst hr; subst hw'; subst htr
      exact ⟨Or.inl rfl, fun hmem => absurd hmem (by simp),
        fun _ hmem => absurd hmem (by simp),
        fun _ _ hmem => absurd hmem (by simp),
        fun _ _ _ hmem => absurd hmem (by simp)⟩
    · rcases hrest with ⟨hct, hc⟩ | ⟨hct, hcg, hc⟩ | ⟨hct, hcg, hcf, hc⟩ |
        ⟨hct, hcg, hcf, hc⟩
      · rw [hc] at hcp
        have hfin : ∃ wfin, Compress inputRaw outputRaw abs srcFs w cfg =
            (.error .closeTarFail, wfin, [.create, .closeTar, .removeDest]) ∧
            lookupW wfin (splitAbs outAbs) = none := by
          cases undo with
          | none =>
            dsimp only at hcp
            exact ⟨removeW w1 (splitAbs outAbs), hcp,
              lookupW_removeW_self w1 _⟩
          | some ud =>
            dsimp only at hcp
            exact ⟨removeAllW (removeW w1 (splitAbs outAbs)) ud, hcp,
              lookupW_removeAllW_none _ ud _ (lookupW_removeW_self w1 _)⟩
        obtain ⟨wfin, hcp2, hlook⟩ := hfin
        rw [hcp2] at hrun
        simp only [Prod.mk.injEq] at hrun
        obtain ⟨hr, hw', htr⟩ := hrun
        subst hr; subst hw'; subst htr
        refine ⟨Or.inr (Or.inl rfl),
          fun _ => ⟨node, es, b2, hsrc, hwd⟩,
          fun _ _ => ⟨rfl, hlook⟩, ?_, ?_⟩
        · intro f1
          rw [hct] at f1
          exact absurd f1 (by simp)
        · intro f1
          rw [hct] at f1
          exact absurd f1 (by simp)
      · rw [hc] at hcp
        have hfin : ∃ wfin, Compress inputRaw outputRaw abs srcFs w cfg =
            (.error .closeGzipFail, wfin,
             [.create, .closeTar, .closeGzip, .removeDest]) ∧
            lookupW wfin (splitAbs outAbs) = none := by
          cases undo with
          | none =>
            dsimp only at hcp
            exact ⟨removeW w1 (splitAbs outAbs), hcp,
              lookupW_removeW_self w1 _⟩
          | some ud =>
            dsimp only at hcp
            exact ⟨removeAllW (removeW w1 (splitAbs outAbs)) ud, hcp,
              lookupW_removeAllW_none _ ud _ (lookupW_removeW_self w1 _)⟩
        obtain ⟨wfin, hcp2, hlook⟩ := hfin
        rw [hcp2] at hrun
        simp only [Prod.mk.injEq] at hrun
        obtain ⟨hr, hw', htr⟩ := hrun
        subst hr; subst hw'; subst htr
        refine ⟨Or.inr (Or.inr (Or.inl rfl)),
          fun _ => ⟨node, es, b2, hsrc, hwd⟩, ?_,
          fun _ _ _ => ⟨rfl, hlook⟩, ?_⟩
        · intro f1
          rw [hct] at f1
          exact absurd f1 (by simp)
        · intro _ f2
          rw [hcg] at f2
          exact absurd f2 (by simp)
      · rw [hc] at hcp
        have hfin : ∃ wfin, Compress inputRaw outputRaw abs srcFs w cfg =
            (.error .closeFileFail, wfin,
             [.create, .closeTar, .closeGzip, .closeFile, .removeDest]) ∧
            lookupW wfin (splitAbs outAbs) = none := by
          cases undo with
          | none =>
            dsimp only at hcp
            exact ⟨removeW w1 (splitAbs outAbs), hcp,
              lookupW_removeW_self w1 _⟩
          | some ud =>
            dsimp only at hcp
            exact ⟨removeAllW (removeW w1 (splitAbs outAbs)) ud, hcp,
              lookupW_removeAllW_none _ ud _ (lookupW_removeW_self w1 _)⟩
        obtain ⟨wfin, hcp2, hlook⟩ := hfin
        rw [hcp2] at hrun
        simp only [Prod.mk.injEq] at hrun
        obtain ⟨hr, hw', htr⟩ := hrun
        subst hr; subst hw'; subst htr
        refine ⟨Or.inr (Or.inr (Or.inr rfl)),
          fun _ => ⟨node, es, b2, hsrc, hwd⟩, ?_, ?_,
          fun _ _ _ _ => ⟨rfl, hlook⟩⟩
        · intro f1
          rw [hct] at f1
          exact absurd f1 (by simp)
        · intro _ f2
          rw [hcg] at f2
          exact absurd f2 (by simp)
      · rw [hc] at hcp
        dsimp only at hcp
        rw [hcp] at hrun
        simp only [Prod.mk.injEq] at hrun
        obtain ⟨hr, hw', htr⟩ := hrun
        subst hr; subst hw'; subst htr
        refine ⟨Or.inr (Or.inr (Or.inr rfl)),
          fun _ => ⟨node, es, b2, hsrc, hwd⟩, ?_, ?_, ?_⟩
        · intro f1
          rw [hct] at f1
          exact absurd f1 (by simp)
        · intro _ f2
          rw [hcg] at f2
          exact absurd f2 (by simp)
        · intro _ _ f3
          rw [hcf] at f3
          exact absurd f3 (by simp)

/-- Witness for C7: with an injected gzip-close failure on the README
example, Compress returns exactly the gzip close error and the destination
file is gone. -/
theorem c7_witness :
    (Compress (str "/tmp/my_folder") (str "/tmp/out/my_archive.tar.gz")
      exampleAbs exampleSrcFs exampleWorld cfgGzipFail).1 =
      .error .closeGzipFail ∧
    lookupW (Compress (str "/tmp/my_folder") (str "/tmp/out/my_archive.tar.gz")
      exampleAbs exampleSrcFs exampleWorld cfgGzipFail).2.1
      (splitAbs (str "/tmp/out/my_archive.tar.gz")) = none := by
  have h := c7_close_order_and_cleanup (str "/tmp/my_folder")
    (str "/tmp/out/my_archive.tar.gz") (str "/tmp/my_folder")
    (str "/tmp/out/my_archive.tar.gz") exampleAbs exampleSrcFs exampleWorld
    (Compress (str "/tmp/my_folder") (str "/tmp/out/my_archive.tar.gz")
      exampleAbs exampleSrcFs exampleWorld cfgGzipFail).2.1
    cfgGzipFail
    (Compress (str "/tmp/my_folder") (str "/tmp/out/my_archive.tar.gz")
      exampleAbs exampleSrcFs exampleWorld cfgGzipFail).1
    (Compress (str "/tmp/my_folder") (str "/tmp/out/my_archive.tar.gz")
      exampleAbs exampleSrcFs exampleWorld cfgGzipFail).2.2
    rfl rfl rfl
  exact h.2.2.2.1 rfl rfl (by decide)

theorem splitSlash_ne_nil (x : Str) : splitSlash x ≠ [] := by
  cases x with
  | nil => simp [splitSlash]
  | cons c rest =>
    simp only [splitSlash]
    cases splitSlash rest with
    | nil => simp
    | cons s ss =>
      by_cases hc : c = '/' <;> simp [hc]

theorem splitAbs_slash (x : Str) : splitAbs ('/' :: x) = splitAbs x := by
  unfold splitAbs
  cases hs : splitSlash x with
  | nil => exact absurd hs (splitSlash_ne_nil x)
  | cons s ss =>
    simp only [splitSlash, hs]
    simp [List.filter_cons]

theorem splitSlash_append_noslash (s : Str) (hs : '/' ∉ s) :
    ∀ (y h : Str) (t : List Str), splitSlash y = h :: t →
    splitSlash (s ++ y) = (s ++ h) :: t := by
  induction s with
  | nil => intro y h t hy; simpa using hy
  | cons c cs ih =>
    intro y h t hy
    have hc : ¬ (c = '/') := by
      intro hc
      exact hs (by rw [hc]; exact List.mem_cons_self _ _)
    have hcs : '/' ∉ cs := fun hmem => hs (List.mem_cons_of_mem _ hmem)
    have hrec := ih hcs y h t hy
    simp only [List.cons_append, splitSlash]
    have hrec2 : splitSlash (cs.append y) = (cs ++ h) :: t := hrec
    rw [hrec2]
    simp [hc]

theorem splitAbs_seg_append (s t : Str) (hw : segWfB s = true)
    (ht : t = [] ∨ ∃ t', t = '/' :: t') :
    splitAbs (s ++ t) = s :: splitAbs t := by
  have hsw := of_decide_eq_true hw
  obtain ⟨hne, hnoslash⟩ := hsw
  rcases ht with rfl | ⟨t', rfl⟩
  · have h1 : splitSlash (s ++ []) = (s ++ []) :: [] :=
      splitSlash_append_noslash s hnoslash [] [] [] rfl
    rw [List.append_nil] at h1 ⊢
    unfold splitAbs
    rw [h1]
    simp [List.filter_cons, hne, splitSlash]
  · cases h2 : splitSlash t' with
    | nil => exact absurd h2 (splitSlash_ne_nil t')
    | cons h2h h2t =>
      have hy : splitSlash ('/' :: t') = [] :: h2h :: h2t := by
        simp only [splitSlash, h2]
        simp
      have h1 : splitSlash (s ++ '/' :: t') = (s ++ []) :: h2h :: h2t :=
        splitSlash_append_noslash s hnoslash _ _ _ hy
      rw [List.append_nil] at h1
      unfold splitAbs
      rw [h1, hy]
      simp [List.filter_cons, hne]

theorem core_shape (rel : List Str) :
    core rel = [] ∨ ∃ t', core rel = '/' :: t' := by
  cases rel with
  | nil => exact Or.inl rfl
  | cons s rest => exact Or.inr ⟨s ++ core rest, rfl⟩

theorem splitAbs_core (rel : List Str)
    (h : ∀ s ∈ rel, segWfB s = true) : splitAbs (core rel) = rel := by
  induction rel with
  | nil => rfl
  | cons s rest ih =>
    have hcore : core (s :: rest) = '/' :: (s ++ core rest) := rfl
    rw [hcore, splitAbs_slash,
      splitAbs_seg_append s (core rest) (h s (by simp)) (core_shape rest),
      ih (fun x hx => h x (by simp [hx]))]

theorem entryFor_cons (p sub n : Str) (rel : List Str) (x : FNode) :
    entryFor p sub (n :: rel, x) = entryFor (p ++ '/' :: n) sub (rel, x) := by
  unfold entryFor
  simp only [core]
  simp [List.append_assoc]

theorem weSpec :
    ∀ (es : FEntries) (p sub : Str), allReadableE es = true →
    writeEntries p es sub none =
      .ok ((visitsE es).map (entryFor p sub), none)
  | .nil, p, sub => by intro hr; rfl
  | .cons n child rest, p, sub => by
    intro hr
    unfold allReadableE at hr
    rw [Bool.and_eq_true] at hr
    obtain ⟨hrc, hrr⟩ := hr
    rw [writeEntries_cons]
    have hchild : childStep p n child sub none =
        .ok ((visitsN child).map (entryFor (p ++ '/' :: n) sub), none) := by
      cases child with
      | file m c r =>
        unfold allReadableN at hrc
        subst hrc
        simp [childStep, writeTarGz, spend, visitsN, entryFor, core]
      | symlink m t r =>
        unfold allReadableN at hrc
        subst hrc
        simp [childStep, writeTarGz, spend, visitsN, entryFor, core]
      | socket m =>
        simp [childStep, writeTarGz, visitsN]
      | dir m r es' =>
        unfold allReadableN at hrc
        rw [Bool.and_eq_true] at hrc
        obtain ⟨hr1, hr2⟩ := hrc
        subst hr1
        show writeDirectory (p ++ '/' :: n) (.dir m true es') sub none = _
        unfold writeDirectory
        cases es' with
        | nil =>
          simp [writeTarGz, spend, visitsN, entryFor, core]
        | cons n2 c2 r2 =>
          rw [if_pos rfl]
          rw [weSpec (.cons n2 c2 r2) (p ++ '/' :: n) sub hr2]
          rfl
    rw [hchild]
    dsimp only
    rw [weSpec rest p sub hrr]
    dsimp only
    have hv : visitsE (.cons n child rest) =
        (visitsN child).map (fun rx => (n :: rx.1, rx.2)) ++ visitsE rest := rfl
    have hmapeq : (visitsN child).map (entryFor (p ++ '/' :: n) sub) =
        (visitsN child).map (fun rx => entryFor p sub (n :: rx.1, rx.2)) := by
      apply List.map_congr_left
      intro rx hrx
      rw [show entryFor p sub (n :: rx.1, rx.2) =
        entryFor (p ++ '/' :: n) sub (rx.1, rx.2) from entryFor_cons p sub n rx.1 rx.2]
    rw [hv, List.map_append, List.map_map, hmapeq]
    rfl

theorem wdSpec (p sub : Str) (m : Nat) (es : FEntries)
    (hr : allReadableE es = true) :
    writeDirectory p (.dir m true es) sub none =
      .ok (specArchive p sub (.dir m true es), none) := by
  unfold writeDirectory
  rw [if_pos rfl]
  cases es with
  | nil =>
    simp [writeTarGz, spend, specArchive, visitsN, entryFor, core]
  | cons n child rest =>
    rw [weSpec (.cons n child rest) p sub hr]
    rfl

theorem visitsE_head :
    ∀ (es : FEntries) (rx : List Str × FNode), rx ∈ visitsE es →
    ∃ n rel, rx.1 = n :: rel ∧ n ∈ namesE es
  | .nil, rx => by intro h; simp [visitsE] at h
  | .cons n child rest, rx => by
    intro h
    unfold visitsE at h
    rcases List.mem_append.mp h with h | h
    · rw [List.mem_map] at h
      obtain ⟨ry, hry, hr⟩ := h
      exact ⟨n, ry.1, by rw [← hr], by simp [namesE]⟩
    · obtain ⟨n2, rel2, h1, h2⟩ := visitsE_head rest rx h
      exact ⟨n2, rel2, h1, by simp [namesE, h2]⟩

theorem wfE_parts (n : Str) (child : FNode) (rest : FEntries)
    (h : wfE (.cons n child rest) = true) :
    segWfB n = true ∧ wfN child = true ∧ (n ∉ namesE rest) ∧
    wfE rest = true := by
  unfold wfE at h
  simp only [Bool.and_eq_true, decide_eq_true_eq] at h
  exact ⟨h.1.1.1, h.1.1.2, h.1.2, h.2⟩

mutual
theorem visitsN_relWf :
    ∀ (node : FNode) (rx : List Str × FNode), wfN node = true →
    rx ∈ visitsN node → ∀ s ∈ rx.1, segWfB s = true
  | .file m c r, rx => by
    intro hwf h s hs
    simp [visitsN] at h
    subst h
    simp at hs
  | .symlink m t r, rx => by
    intro hwf h s hs
    simp [visitsN] at h
    subst h
    simp at hs
  | .socket m, rx => by
    intro hwf h
    simp [visitsN] at h
  | .dir m r .nil, rx => by
    intro hwf h s hs
    simp [visitsN] at h
    subst h
    simp at hs
  | .dir m r (.cons n child rest), rx => by
    intro hwf h
    exact visitsE_relWf (.cons n child rest) rx hwf h
theorem visitsE_relWf :
    ∀ (es : FEntries) (rx : List Str × FNode), wfE es = true →
    rx ∈ visitsE es → ∀ s ∈ rx.1, segWfB s = true
  | .nil, rx => by intro hwf h; simp [visitsE] at h
  | .cons n child rest, rx => by
    intro hwf h s hs
    obtain ⟨hn, hchild, hnames, hrest⟩ := wfE_parts n child rest hwf
    unfold visitsE at h
    rcases List.mem_append.mp h with h | h
    · rw [List.mem_map] at h
      obtain ⟨ry, hry, hr⟩ := h
      rw [← hr] at hs
      simp only at hs
      rcases List.mem_cons.mp hs with rfl | hs2
      · exact hn
      · exact visitsN_relWf child ry hchild hry s hs2
    · exact visitsE_relWf rest rx hrest h s hs
end

theorem nodeAtE_mem_names :
    ∀ (es : FEntries) (n : Str) (rel : List Str) (x : FNode),
    nodeAtE es n rel = some x → n ∈ namesE es
  | .nil, n, rel, x => by intro h; simp [nodeAtE] at h
  | .cons n2 child rest, n, rel, x => by
    intro h
    unfold nodeAtE at h
    by_cases hn : n2 = n
    · rw [hn]; simp [namesE]
    · rw [if_neg hn] at h
      simp [namesE, nodeAtE_mem_names rest n rel x h]

mutual
theorem visitsN_nodeAt :
    ∀ (node : FNode) (rx : List Str × FNode), wfN node = true →
    rx ∈ visitsN node → nodeAt node rx.1 = some rx.2
  | .file m c r, rx => by
    intro hwf h
    simp [visitsN] at h
    subst h
    rfl
  | .symlink m t r, rx => by
    intro hwf h
    simp [visitsN] at h
    subst h
    rfl
  | .socket m, rx => by
    intro hwf h
    simp [visitsN] at h
  | .dir m r .nil, rx => by
    intro hwf h
    simp [visitsN] at h
    subst h
    rfl
  | .dir m r (.cons n child rest), rx => by
    intro hwf h
    have hh := visitsE_head (.cons n child rest) rx h
    obtain ⟨n2, rel2, h1, h2⟩ := hh
    rw [h1]
    show nodeAtE (.cons n child rest) n2 rel2 = some rx.2
    exact visitsE_nodeAt (.cons n child rest) rx hwf h n2 rel2 h1
theorem visitsE_nodeAt :
    ∀ (es : FEntries) (rx : List Str × FNode), wfE es = true →
    rx ∈ visitsE es → ∀ (n : Str) (rel : List Str), rx.1 = n :: rel →
    nodeAtE es n rel = some rx.2
  | .nil, rx => by intro hwf h; simp [visitsE] at h
  | .cons n2 child rest, rx => by
    intro hwf h n rel h1
    obtain ⟨hn, hchild, hnames, hrest⟩ := wfE_parts n2 child rest hwf
    unfold visitsE at h
    rcases List.mem_append.mp h with h | h
    · rw [List.mem_map] at h
      obtain ⟨ry, hry, hr⟩ := h
      rw [← hr] at h1
      simp only at h1
      injection h1 with h1a h1b
      subst h1a
      subst h1b
      unfold nodeAtE
      rw [if_pos rfl]
      have := visitsN_nodeAt child ry hchild hry
      rw [← hr]
      exact this
    · have hd := visitsE_head rest rx h
      obtain ⟨n3, rel3, h3, hmem3⟩ := hd
      rw [h1] at h3
      injection h3 with h3a h3b
      have hne : ¬ (n2 = n) := by
        intro hc
        rw [hc, h3a] at hnames
        exact hnames hmem3
      unfold nodeAtE
      rw [if_neg hne]
      exact visitsE_nodeAt rest rx hrest h n rel h1
end

mutual
theorem visitsN_keys_nodup :
    ∀ (node : FNode), wfN node = true →
    ((visitsN node).map Prod.fst).Nodup
  | .file m c r => by intro hwf; simp [visitsN]
  | .symlink m t r => by intro hwf; simp [visitsN]
  | .socket m => by intro hwf; simp [visitsN]
  | .dir m r .nil => by intro hwf; simp [visitsN]
  | .dir m r (.cons n child rest) => by
    intro hwf
    exact visitsE_keys_nodup (.cons n child rest) hwf
theorem visitsE_keys_nodup :
    ∀ (es : FEntries), wfE es = true →
    ((visitsE es).map Prod.fst).Nodup
  | .nil => by intro hwf; simp [visitsE]
  | .cons n child rest => by
    intro hwf
    obtain ⟨hn, hchild, hnames, hrest⟩ := wfE_parts n child rest hwf
    unfold visitsE
    rw [List.map_append, List.map_map]
    apply List.Nodup.append
    · have h1 : ((visitsN child).map (Prod.fst ∘ fun rx => (n :: rx.1, rx.2)))
          = ((visitsN child).map Prod.fst).map (fun rel => n :: rel) := by
        rw [List.map_map]
        rfl
      rw [h1]
      apply List.Nodup.map
      · intro a b hab
        injection hab with h1 h2
      · exact visitsN_keys_nodup child hchild
    · exact visitsE_keys_nodup rest hrest
    · intro a ha hb
      have h1 : ((visitsN child).map (Prod.fst ∘ fun rx => (n :: rx.1, rx.2)))
          = ((visitsN child).map Prod.fst).map (fun rel => n :: rel) := by
        rw [List.map_map]
        rfl
      rw [h1, List.mem_map] at ha
      obtain ⟨rel, hrel, ha⟩ := ha
      rw [List.mem_map] at hb
      obtain ⟨ry, hry, hb⟩ := hb
      obtain ⟨n3, rel3, h3, hmem3⟩ := visitsE_head rest ry hry
      rw [h3] at hb
      rw [← hb] at ha
      injection ha with ha1 ha2
      rw [ha1] at hnames
      exact hnames hmem3
end

theorem specArchive_names_nodup (p sub : Str) (node : FNode)
    (hwf : wfN node = true) (hlen : sub.length ≤ p.length) :
    ((specArchive p sub node).map Entry.name).Nodup := by
  unfold specArchive
  rw [List.map_map]
  have heq : (Entry.name ∘ entryFor p sub) =
      (fun rx : List Str × FNode => (p ++ core rx.1).drop sub.length) := rfl
  rw [heq]
  have h2 : (visitsN node).map
      (fun rx : List Str × FNode => (p ++ core rx.1).drop sub.length) =
      ((visitsN node).map Prod.fst).map
        (fun rel => (p ++ core rel).drop sub.length) := by
    rw [List.map_map]
    rfl
  rw [h2]
  apply List.Nodup.map_on
  · intro x hx y hy hxy
    rw [List.mem_map] at hx hy
    obtain ⟨rx, hrx, hx⟩ := hx
    obtain ⟨ry, hry, hy⟩ := hy
    have hxwf : ∀ s ∈ x, segWfB s = true := by
      intro s hs
      rw [← hx] at hs
      exact visitsN_relWf node rx hwf hrx s hs
    have hywf : ∀ s ∈ y, segWfB s = true := by
      intro s hs
      rw [← hy] at hs
      exact visitsN_relWf node ry hwf hry s hs
    have hda : (p ++ core x).drop sub.length = p.drop sub.length ++ core x :=
      List.drop_append_of_le_length hlen
    have hdb : (p ++ core y).drop sub.length = p.drop sub.length ++ core y :=
      List.drop_append_of_le_length hlen
    rw [hda, hdb] at hxy
    have hcore : core x = core y := List.append_cancel_left hxy
    have := congrArg splitAbs hcore
    rwa [splitAbs_core x hxwf, splitAbs_core y hywf] at this
  · exact visitsN_keys_nodup node hwf

/-- The claim C2 as stated fails: in this concrete tree the non-empty
subdirectory S is traversed, yet no header record is produced for it —
only its contained file is recorded. -/
def c2Tree : FNode :=
  .dir 493 true (.cons (str "S")
    (.dir 493 true (.cons (str "f") (.file 420 (str "x") true) .nil)) .nil)

/-- Counterexample to C2 as stated: traversing `/p/D` containing the
non-empty subdirectory `S` produces exactly one record — for the file
`f` — and none whose name is the name of the visited subdirectory `S`. -/
theorem c2_counterexample :
    writeDirectory (str "/p/D") c2Tree (str "/p") none =
      .ok ([{ name := str "/D/S/f", typ := .reg, mode := 420, link := [],
              content := some (str "x") }], none) ∧
    str "/D/S" ∉
      ([{ name := str "/D/S/f", typ := EType.reg, mode := 420, link := [],
          content := some (str "x") }].map Entry.name) := by
  constructor
  · rfl
  · decide

/-- C2 corrected: on a readable well-formed tree the traversal succeeds and
records exactly the entries of `specArchive`: one header (name, type, mode,
link target) for every file and symbolic link, a header-only entry for
every empty directory, nothing for sockets, and no header for a non-empty
directory itself (its children are recorded instead); the recorded names
are pairwise distinct, so every recorded object appears exactly once. -/
theorem c2_traversal_records_spec_archive (p sub : Str) (m : Nat)
    (es : FEntries) (hread : allReadableE es = true)
    (hwf : wfE es = true) (hlen : sub.length ≤ p.length) :
    writeDirectory p (.dir m true es) sub none =
      .ok (specArchive p sub (.dir m true es), none) ∧
    ((specArchive p sub (.dir m true es)).map Entry.name).Nodup := by
  refine ⟨wdSpec p sub m es hread, ?_⟩
  exact specArchive_names_nodup p sub (.dir m true es) hwf hlen

/-- Witness for C2 corrected, on the README example tree. -/
theorem c2_witness :
    writeDirectory (str "/tmp/my_folder") exampleTree (str "/tmp") none =
      .ok (specArchive (str "/tmp/my_folder") (str "/tmp") exampleTree,
           none) ∧
    ((specArchive (str "/tmp/my_folder") (str "/tmp") exampleTree).map
      Entry.name).Nodup := by
  have h := c2_traversal_records_spec_archive (str "/tmp/my_folder")
    (str "/tmp") 493
    (.cons (str "my_sub_folder")
      (.dir 493 true (.cons (str "my_file.txt")
        (.file 420 (str "example data") true)
        (.cons (str "my_link") (.symlink 511 (str "target") true) .nil)))
      (.cons (str "empty") (.dir 493 true .nil) .nil))
    (by decide) (by decide) (by decide)
  exact h

theorem core_append (x y : List Str) : core (x ++ y) = core x ++ core y := by
  simp [core]

theorem dropWhileAll (p : Char → Bool) (l r : Str)
    (h : ∀ c ∈ l, p c = true) : (l ++ r).dropWhile p = r.dropWhile p := by
  induction l with
  | nil => rfl
  | cons c cs ih =>
    have hc : p c = true := h c (by simp)
    rw [List.cons_append, List.dropWhile_cons, hc]
    simp only [ite_true]
    exact ih (fun c2 hc2 => h c2 (by simp [hc2]))

theorem goDir_segsToAbs (anc : List Str) (d : Str)
    (hd : segWfB d = true) :
    goDir (segsToAbs (anc ++ [d])) = segsToAbs anc := by
  obtain ⟨hdne, hdnoslash⟩ := of_decide_eq_true hd
  have habs : segsToAbs (anc ++ [d]) = core anc ++ '/' :: d := by
    unfold segsToAbs
    rw [if_neg (by simp)]
    rw [core_append]
    simp [core]
  rw [habs]
  unfold goDir
  have hrev : (core anc ++ '/' :: d).reverse =
      d.reverse ++ '/' :: (core anc).reverse := by
    rw [List.reverse_append, List.reverse_cons]
    simp
  rw [hrev]
  have hdrop : (d.reverse ++ '/' :: (core anc).reverse).dropWhile
      (fun c => c ≠ '/') = '/' :: (core anc).reverse := by
    rw [dropWhileAll _ d.reverse _ ?_]
    · rw [List.dropWhile_cons]
      simp
    · intro c hc
      rw [List.mem_reverse] at hc
      simp only [ne_eq, decide_eq_true_eq]
      intro hcq
      rw [hcq] at hc
      exact hdnoslash hc
  rw [hdrop]
  simp only [List.tail_cons, List.reverse_reverse]
  unfold segsToAbs
  cases anc with
  | nil => simp [core]
  | cons a anc' =>
    have h1 : core (a :: anc') = '/' :: (a ++ core anc') := rfl
    rw [h1]
    simp

theorem name_splits (anc : List Str) (d : Str) (rel : List Str)
    (hd : segWfB d = true)
    (hrel : ∀ s ∈ rel, segWfB s = true) :
    splitAbs ((segsToAbs (anc ++ [d]) ++ core rel).drop
      (goDir (segsToAbs (anc ++ [d]))).length) = d :: rel := by
  rw [goDir_segsToAbs anc d hd]
  have hstep : splitAbs (d ++ core rel) = d :: rel := by
    rw [splitAbs_seg_append d (core rel) hd (core_shape rel),
      splitAbs_core rel hrel]
  cases anc with
  | nil =>
    have h1 : segsToAbs ([] ++ [d]) = '/' :: (d ++ []) := by
      unfold segsToAbs
      rw [if_neg (by simp)]
      simp [core]
    rw [h1]
    have h2 : segsToAbs [] = ['/'] := rfl
    rw [h2]
    simp only [List.length_cons, List.length_nil, List.append_nil]
    rw [show ('/' :: d ++ core rel).drop 1 = d ++ core rel from rfl]
    exact hstep
  | cons a anc' =>
    have h1 : segsToAbs ((a :: anc') ++ [d]) = core (a :: anc') ++ '/' :: d := by
      unfold segsToAbs
      rw [if_neg (by simp)]
      rw [core_append]
      simp [core]
    have h2 : segsToAbs (a :: anc') = core (a :: anc') := by
      unfold segsToAbs
      rw [if_neg (by simp)]
    rw [h1, h2, List.append_assoc]
    rw [List.drop_left]
    rw [show ('/' :: d ++ core rel : Str) = '/' :: (d ++ core rel) from rfl]
    rw [splitAbs_slash]
    exact hstep

mutual
theorem namesD :
    ∀ (node : FNode) (p sub : Str) (b b' : Budget) (out : List Entry),
    wfN node = true → writeDirectory p node sub b = .ok (out, b') →
    ∀ e ∈ out, ∃ rel x, (∀ s ∈ rel, segWfB s = true) ∧
      nodeAt node rel = some x ∧
      e.name = (p ++ core rel).drop sub.length
  | .file m c r, p, sub, b, b', out => by
    intro hwf h
    have hred : writeDirectory p (.file m c r) sub b = .error .readDirFail := rfl
    rw [hred] at h
    exact absurd h (by simp)
  | .symlink m t r, p, sub, b, b', out => by
    intro hwf h
    have hred : writeDirectory p (.symlink m t r) sub b =
      .error .readDirFail := rfl
    rw [hred] at h
    exact absurd h (by simp)
  | .socket m, p, sub, b, b', out => by
    intro hwf h
    have hred : writeDirectory p (.socket m) sub b = .error .readDirFail := rfl
    rw [hred] at h
    exact absurd h (by simp)
  | .dir m r es, p, sub, b, b', out => by
    intro hwf h e he
    cases r with
    | false =>
      have hred : writeDirectory p (.dir m false es) sub b =
        .error .readDirFail := by cases es <;> rfl
      rw [hred] at h
      exact absurd h (by simp)
    | true =>
      cases es with
      | nil =>
        have hred : writeDirectory p (.dir m true .nil) sub b =
          writeTarGz p (.dir m true .nil) sub b := rfl
        rw [hred] at h
        unfold writeTarGz at h
        dsimp only at h
        cases hsp : spend b with
        | error e2 => rw [hsp] at h; simp at h
        | ok b1 =>
          rw [hsp] at h
          dsimp only at h
          injection h with h1
          injection h1 with h1 h2
          rw [← h1] at he
          rcases List.mem_singleton.mp he with rfl
          refine ⟨[], .dir m true .nil, by simp, rfl, ?_⟩
          simp [core]
      | cons n child rest =>
        have hred : writeDirectory p (.dir m true (.cons n child rest)) sub b =
          writeEntries p (.cons n child rest) sub b := rfl
        rw [hred] at h
        obtain ⟨n2, rel, x, hn2, hrel, hnode, hname⟩ :=
          namesEnt (.cons n child rest) p sub b b' out hwf h e he
        refine ⟨n2 :: rel, x, ?_, hnode, hname⟩
        intro s hs
        rcases List.mem_cons.mp hs with rfl | hs2
        · exact hn2
        · exact hrel s hs2
theorem namesEnt :
    ∀ (es : FEntries) (p sub : Str) (b b' : Budget) (out : List Entry),
    wfE es = true → writeEntries p es sub b = .ok (out, b') →
    ∀ e ∈ out, ∃ n rel x, segWfB n = true ∧ (∀ s ∈ rel, segWfB s = true) ∧
      nodeAtE es n rel = some x ∧
      e.name = (p ++ core (n :: rel)).drop sub.length
  | .nil, p, sub, b, b', out => by
    intro hwf h e he
    rw [writeEntries_nil] at h
    injection h with h1
    injection h1 with h1 h2
    rw [← h1] at he
    simp at he
  | .cons n child rest, p, sub, b, b', out => by
    intro hwf h e he
    obtain ⟨hn, hchild, hnames, hrest⟩ := wfE_parts n child rest hwf
    rw [writeEntries_cons] at h
    cases hcs : childStep p n child sub b with
    | error e2 => rw [hcs] at h; simp at h
    | ok pr1 =>
      obtain ⟨out1, b1⟩ := pr1
      rw [hcs] at h
      dsimp only at h
      cases hre : writeEntries p rest sub b1 with
      | error e2 => rw [hre] at h; simp at h
      | ok pr2 =>
        obtain ⟨out2, b2⟩ := pr2
        rw [hre] at h
        dsimp only at h
        injection h with h1
        injection h1 with h1 h2
        rw [← h1] at he
        rcases List.mem_append.mp he with he1 | he2
        · cases child with
          | dir m2 r2 es2 =>
            have hcs2 : writeDirectory (p ++ '/' :: n) (.dir m2 r2 es2) sub b =
                .ok (out1, b1) := hcs
            obtain ⟨rel, x, hrel, hnode, hname⟩ :=
              namesD (.dir m2 r2 es2) (p ++ '/' :: n) sub b b1 out1
                hchild hcs2 e he1
            refine ⟨n, rel, x, hn, hrel, ?_, ?_⟩
            · unfold nodeAtE
              rw [if_pos rfl]
              exact hnode
            · rw [hname]
              congr 1
              simp [core, List.append_assoc]
          | file m2 c2 r2 =>
            have hcs2 : writeTarGz (p ++ '/' :: n) (.file m2 c2 r2) sub b =
                .ok (out1, b1) := hcs
            unfold writeTarGz at hcs2
            dsimp only at hcs2
            cases hsp : spend b with
            | error e2 => rw [hsp] at hcs2; simp at hcs2
            | ok bb1 =>
              rw [hsp] at hcs2
              dsimp only at hcs2
              cases r2 with
              | false => simp at hcs2
              | true =>
                rw [if_pos rfl] at hcs2
                cases hsp2 : spend bb1 with
                | error e2 => rw [hsp2] at hcs2; simp at hcs2
                | ok bb2 =>
                  rw [hsp2] at hcs2
                  injection hcs2 with h3
                  injection h3 with h3 h4
                  rw [← h3] at he1
                  rcases List.mem_singleton.mp he1 with rfl
                  refine ⟨n, [], .file m2 c2 true, hn, by simp, ?_, ?_⟩
                  · unfold nodeAtE
                    rw [if_pos rfl]
                    rfl
                  · simp [core]
          | symlink m2 t2 r2 =>
            have hcs2 : writeTarGz (p ++ '/' :: n) (.symlink m2 t2 r2) sub b =
                .ok (out1, b1) := hcs
            unfold writeTarGz at hcs2
            dsimp only at hcs2
            cases r2 with
            | false => simp at hcs2
            | true =>
              rw [if_pos rfl] at hcs2
              cases hsp : spend b with
              | error e2 => rw [hsp] at hcs2; simp at hcs2
              | ok bb1 =>
                rw [hsp] at hcs2
                injection hcs2 with h3
                injection h3 with h3 h4
                rw [← h3] at he1
                rcases List.mem_singleton.mp he1 with rfl
                refine ⟨n, [], .symlink m2 t2 true, hn, by simp, ?_, ?_⟩
                · unfold nodeAtE
                  rw [if_pos rfl]
                  rfl
                · simp [core]
          | socket m2 =>
            have hcs2 : writeTarGz (p ++ '/' :: n) (.socket m2) sub b =
                .ok (out1, b1) := hcs
            unfold writeTarGz at hcs2
            dsimp only at hcs2
            injection hcs2 with h3
            injection h3 with h3 h4
            rw [← h3] at he1
            simp at he1
        · obtain ⟨n2, rel, x, hn2, hrel, hnode, hname⟩ :=
            namesEnt rest p sub b1 b2 out2 hrest hre e he2
          refine ⟨n2, rel, x, hn2, hrel, ?_, hname⟩
          have hne : ¬ (n = n2) := by
            intro hc
            rw [hc] at hnames
            exact hnames (nodeAtE_mem_names rest n2 rel x hnode)
          unfold nodeAtE
          rw [if_neg hne]
          exact hnode
end

/-- C1: when the source directory sits at `/anc.../d`, every entry name the
successful archive records consists of the segments `d :: rel` where `rel`
is a valid relative path inside the source tree: the ancestor prefix is
excluded and no ancestor segment appears in front of the source directory
name.  (As in the Go code, names carry a leading separator when the parent
is not the root; the segment decomposition is unaffected.) -/
theorem c1_names_rooted_at_source_directory
    (inputRaw outputRaw outAbs : Str) (anc : List Str) (d : Str)
    (tree : FNode) (abs : Str → Option Str) (srcFs : Str → Option FNode)
    (w w' : World) (cfg : Cfg) (tr : List Ev)
    (hd : segWfB d = true) (htree : wfN tree = true)
    (habsIn : abs (stripTrailingSlashes inputRaw) =
      some (segsToAbs (anc ++ [d])))
    (habsOut : abs outputRaw = some outAbs)
    (hsrc : srcFs (segsToAbs (anc ++ [d])) = some tree)
    (hrun : Compress inputRaw outputRaw abs srcFs w cfg = (.ok (), w', tr)) :
    ∃ es, lookupW w' (splitAbs outAbs) = some (.dnFile es) ∧
      ∀ e ∈ es, ∃ rel, (∃ x, nodeAt tree rel = some x) ∧
        splitAbs e.name = d :: rel := by
  cases hmk : mkdirAll w (splitAbs outAbs).dropLast with
  | error em =>
    rw [Compress_mkdirFail inputRaw outputRaw _ outAbs abs srcFs w cfg em
      habsIn habsOut hmk] at hrun
    exact absurd (congrArg (fun t => t.1) hrun) (by simp)
  | ok rr =>
    obtain ⟨undo, w1⟩ := rr
    have hcp := Compress_eq inputRaw outputRaw _ outAbs abs srcFs w w1 cfg
      undo habsIn habsOut hmk
    rcases compress_outcomes (segsToAbs (anc ++ [d]))
        (srcFs (segsToAbs (anc ++ [d]))) w1 (splitAbs outAbs)
        (goDir (segsToAbs (anc ++ [d]))) cfg with
      ⟨e0, hc⟩ | ⟨e0, hc⟩ | ⟨node, es, b2, hsrc2, hwd, hrest⟩
    · rw [hc] at hcp
      cases undo with
      | none =>
        dsimp only at hcp
        rw [hcp] at hrun
        exact absurd (congrArg (fun t => t.1) hrun) (by simp)
      | some ud =>
        dsimp only at hcp
        rw [hcp] at hrun
        exact absurd (congrArg (fun t => t.1) hrun) (by simp)
    · rw [hc] at hcp
      cases undo with
      | none =>
        dsimp only at hcp
        rw [hcp] at hrun
        exact absurd (congrArg (fun t => t.1) hrun) (by simp)
      | some ud =>
        dsimp only at hcp
        rw [hcp] at hrun
        exact absurd (congrArg (fun t => t.1) hrun) (by simp)
    · rcases hrest with ⟨hct, hc⟩ | ⟨hct, hcg, hc⟩ | ⟨hct, hcg, hcf, hc⟩ |
        ⟨hct, hcg, hcf, hc⟩
      · rw [hc] at hcp
        cases undo with
        | none =>
          dsimp only at hcp
          rw [hcp] at hrun
          exact absurd (congrArg (fun t => t.1) hrun) (by simp)
        | some ud =>
          dsimp only at hcp
          rw [hcp] at hrun
          exact absurd (congrArg (fun t => t.1) hrun) (by simp)
      · rw [hc] at hcp
        cases undo with
        | none =>
          dsimp only at hcp
          rw [hcp] at hrun
          exact absurd (congrArg (fun t => t.1) hrun) (by simp)
        | some ud =>
          dsimp only at hcp
          rw [hcp] at hrun
          exact absurd (congrArg (fun t => t.1) hrun) (by simp)
      · rw [hc] at hcp
        cases undo with
        | none =>
          dsimp only at hcp
          rw [hcp] at hrun
          exact absurd (congrArg (fun t => t.1) hrun) (by simp)
        | some ud =>
          dsimp only at hcp
          rw [hcp] at hrun
          exact absurd (congrArg (fun t => t.1) hrun) (by simp)
      · rw [hc] at hcp
        dsimp only at hcp
        rw [hcp] at hrun
        simp only [Prod.mk.injEq] at hrun
        obtain ⟨hr0, hw', htr0⟩ := hrun
        subst hw'
        rw [hsrc] at hsrc2
        injection hsrc2 with hnode
        subst hnode
        refine ⟨es, lookupW_setFileW_self _ _ _, ?_⟩
        intro e he
        obtain ⟨rel, x, hrel, hnode2, hname⟩ := namesD tree
          (segsToAbs (anc ++ [d])) (goDir (segsToAbs (anc ++ [d])))
          cfg.budget b2 es htree hwd e he
        refine ⟨rel, ⟨x, hnode2⟩, ?_⟩
        rw [hname]
        exact name_splits anc d rel hd hrel

/-- Witness for C1: the README example, with the source directory at
`/tmp/my_folder`. -/
theorem c1_witness :
    ∃ es, lookupW (Compress (str "/tmp/my_folder/")
        (str "/tmp/out/my_archive.tar.gz") exampleAbs exampleSrcFs
        exampleWorld cfgOk).2.1
      (splitAbs (str "/tmp/out/my_archive.tar.gz")) = some (.dnFile es) ∧
      ∀ e ∈ es, ∃ rel, (∃ x, nodeAt exampleTree rel = some x) ∧
        splitAbs e.name = str "my_folder" :: rel := by
  exact c1_names_rooted_at_source_directory (str "/tmp/my_folder/")
    (str "/tmp/out/my_archive.tar.gz") (str "/tmp/out/my_archive.tar.gz")
    [str "tmp"] (str "my_folder") exampleTree exampleAbs exampleSrcFs
    exampleWorld
    (Compress (str "/tmp/my_folder/") (str "/tmp/out/my_archive.tar.gz")
      exampleAbs exampleSrcFs exampleWorld cfgOk).2.1
    cfgOk
    (Compress (str "/tmp/my_folder/") (str "/tmp/out/my_archive.tar.gz")
      exampleAbs exampleSrcFs exampleWorld cfgOk).2.2
    (by decide) (by decide) rfl rfl rfl rfl

end Targz
